import Mathlib

/-! ## SimpleShell: a shallow embedding of `simpleshell.c`

The development follows the C source function by function.  C strings are
lists of characters (the bytes before the terminating NUL), `char*` values are
`Option CStr` (`none` is `NULL`), local arrays are `CArr` values that remember
every store that fell outside the array, and the operating system (clock,
`pipe`, `fork`, `getpid`) is an explicit environment.
-/

namespace SimpleShell

/-! ## Constants -/

def MAX_LINE_LEN : Nat := 1024
def MAX_ARGS : Nat := 64
def MAX_CMDS : Nat := 16
def INITIAL_HISTORY_CAPACITY : Nat := 10

/-! ## C strings and `strtok` -/

/-- The contents of a NUL-terminated C string: the characters before the NUL. -/
abbrev CStr := List Char

/-- A `char*` value that is either `NULL` (`none`) or points to a string. -/
abbrev CharPtr := Option CStr

/-- Length of the initial run of `s` made only of characters of `accept`. -/
def strspn (s accept : CStr) : Nat :=
  (s.takeWhile (fun c => decide (c ∈ accept))).length

/-- Length of the initial run of `s` made only of characters not in `reject`. -/
def strcspn (s reject : CStr) : Nat :=
  (s.takeWhile (fun c => !decide (c ∈ reject))).length

def strlen (s : CStr) : Nat := s.length

/-- The string left in `dest` by `strncpy(dest, src, n); dest[n] = 0`. -/
def strncpy (src : CStr) (n : Nat) : CStr := src.take n

/-- The scan `strtok` makes from the pointer `p0`: leading delimiters are
skipped; if the string ends there the result is `NULL`; otherwise the token
runs to the next delimiter, which is overwritten by NUL, and the saved
pointer is set behind it (or to the end of the string). -/
def strtokAt (p0 delim : CStr) : Option CStr × CStr :=
  let p := p0.drop (strspn p0 delim)
  match p with
  | [] => (none, [])
  | _ :: _ =>
    let n := strcspn p delim
    match p.drop n with
    | [] => (some (p.take n), [])
    | _ :: rest => (some (p.take n), rest)

/-- The C library `strtok`.  `s = some str` starts a scan of `str`, `s = none`
(`NULL`) resumes at the saved pointer `save`.  The result is the token
(`none` is `NULL`) and the new saved pointer. -/
def strtok (s : Option CStr) (delim : CStr) (save : CStr) : Option CStr × CStr :=
  match s with
  | some str => strtokAt str delim
  | none => strtokAt save delim

/-! ## Fixed-size local arrays -/

/-- A C array of fixed size.  A cell is `none` while its value is
indeterminate (never stored).  `oob` lists, in program order, the indices of
the stores that fell outside the array. -/
structure CArr (α : Type) where
  cells : List (Option α)
  oob : List Nat
deriving DecidableEq, Repr

/-- A freshly declared, uninitialised array of `n` cells. -/
def CArr.fresh {α : Type} (n : Nat) : CArr α := ⟨List.replicate n none, []⟩

/-- The store `a[i] = v`. -/
def CArr.store {α : Type} (a : CArr α) (i : Nat) (v : α) : CArr α :=
  if i < a.cells.length then { a with cells := a.cells.set i (some v) }
  else { a with oob := a.oob ++ [i] }

/-- The read `a[i]`; `none` when the cell is indeterminate or outside. -/
def CArr.load {α : Type} (a : CArr α) (i : Nat) : Option α := (a.cells.get? i).join

/-! ## Parsing -/

/-- The delimiter set of `parseSpaces`: `" \t\r\n\a"`. -/
def SPACE_DELIM : CStr := [' ', '\t', '\r', '\n', '\x07']

/-- The delimiter set of `parsePipes`: `"|"`. -/
def PIPE_DELIM : CStr := ['|']

/-- The loop both parsers run:
`while (token != NULL && i < limit) { arr[i++] = token; token = strtok(NULL, delim); }`.
The first argument bounds the number of iterations; `limit + 1` is enough
(`tokenLoop_fuel`). -/
def tokenLoop (delim : CStr) (limit : Nat) :
    Nat → Option CStr → CStr → Nat → CArr CharPtr → Nat × CArr CharPtr
  | 0, _, _, i, arr => (i, arr)
  | fuel + 1, token, save, i, arr =>
    match token with
    | none => (i, arr)
    | some t =>
      if i < limit then
        let r := strtok none delim save
        tokenLoop delim limit fuel r.1 r.2 (i + 1) (arr.store i (some t))
      else (i, arr)

/-- The function `parseSpaces(command, args)`: the state of `args` on return. -/
def parseSpaces (command : CStr) (args : CArr CharPtr) : CArr CharPtr :=
  let r := strtok (some command) SPACE_DELIM []
  let l := tokenLoop SPACE_DELIM (MAX_ARGS - 1) MAX_ARGS r.1 r.2 0 args
  l.2.store l.1 none

/-- The function `parsePipes(line, commands)`: the returned count and the state
of `commands` on return. -/
def parsePipes (line : CStr) (commands : CArr CharPtr) : Nat × CArr CharPtr :=
  let r := strtok (some line) PIPE_DELIM []
  let l := tokenLoop PIPE_DELIM MAX_CMDS (MAX_CMDS + 1) r.1 r.2 0 commands
  (l.1, l.2.store l.1 none)

/-- The argument vector a caller sees in `args`: the strings stored before the
first cell that is `NULL` or indeterminate. -/
def argv (args : CArr CharPtr) : List CStr :=
  (args.cells.takeWhile (fun c => (c.join).isSome)).filterMap Option.join

/-- The stages a caller sees after `parsePipes` returned `n`: `commands[0..n-1]`.
When a store of `parsePipes` fell outside the array the behaviour of the
program is undefined and there is nothing to read: the result is `none`. -/
def stages (r : Nat × CArr CharPtr) : Option (List CharPtr) :=
  if r.2.oob = [] then some ((List.range r.1).map (fun j => (r.2.load j).join)) else none

/-! ## History -/

/-- The C `struct timeval`. -/
structure Timeval where
  tv_sec : Int
  tv_usec : Int
deriving DecidableEq, Repr

/-- The value `seconds + microseconds / 1e6` that the source holds in a
`double`, kept as its two integer operands. -/
structure Duration where
  seconds : Int
  microseconds : Int
deriving DecidableEq, Repr

/-- The struct `CommandStat`.  A field is `none` while its value is indeterminate
(never assigned since the storage was allocated). -/
structure CommandStat where
  command : Option CStr
  pid : Option Int
  startTime : Option Int
  durationSecs : Option Duration
deriving DecidableEq, Repr

/-- A record in freshly allocated storage. -/
def CommandStat.indeterminate : CommandStat := ⟨none, none, none, none⟩

/-- The struct `CommandHistory`.  `entries` is the allocated block, one element
per `CommandStat` of storage; `count` and `capacity` are the C `int` fields,
taken as naturals (allocation is assumed to succeed and the `int` range is
not modelled). -/
structure CommandHistory where
  entries : List CommandStat
  count : Nat
  capacity : Nat
  isTestMode : Int
deriving DecidableEq, Repr

/-- The block `malloc(n * sizeof(CommandStat))` returns. -/
def malloc (n : Nat) : List CommandStat := List.replicate n CommandStat.indeterminate

/-- The block `realloc(entries, n * sizeof(CommandStat))` returns: the old
contents up to `n` elements, the rest indeterminate. -/
def realloc (entries : List CommandStat) (n : Nat) : List CommandStat :=
  entries.take n ++ List.replicate (n - entries.length) CommandStat.indeterminate

def initHistory : CommandHistory :=
  { entries := malloc INITIAL_HISTORY_CAPACITY
    count := 0
    capacity := INITIAL_HISTORY_CAPACITY
    isTestMode := 0 }

/-- The capacity check and doubling at the head of `addToHistory`. -/
def growHistory (h : CommandHistory) : CommandHistory :=
  if h.count ≥ h.capacity then
    { h with capacity := h.capacity * 2, entries := realloc h.entries (h.capacity * 2) }
  else h

def addToHistory (h : CommandHistory) (command : CStr) : CommandHistory :=
  let h1 := growHistory h
  let text := strncpy command (MAX_LINE_LEN - 1)
  let entries := h1.entries.modify (fun e => { e with command := some text }) h1.count
  { h1 with entries := entries, count := h1.count + 1 }

/-- The store `history.entries[historyIndex].startTime = t`. -/
def setStartTime (h : CommandHistory) (historyIndex : Nat) (t : Int) : CommandHistory :=
  { h with entries := h.entries.modify (fun e => { e with startTime := some t }) historyIndex }

/-- The two stores `history.entries[historyIndex].pid = pid` and
`history.entries[historyIndex].durationSecs = d` that end `executeLine`;
`pid` is `none` when the value stored is itself indeterminate. -/
def finalize (h : CommandHistory) (historyIndex : Nat) (pid : Option Int) (d : Duration) :
    CommandHistory :=
  let entries := h.entries.modify (fun e => { e with pid := pid, durationSecs := some d })
    historyIndex
  { h with entries := entries }

/-- The difference `(end.tv_sec - start.tv_sec) + (end.tv_usec - start.tv_usec) / 1e6`. -/
def elapsed (startTv endTv : Timeval) : Duration :=
  ⟨endTv.tv_sec - startTv.tv_sec, endTv.tv_usec - startTv.tv_usec⟩

/-! ## The shell process -/

inductive Side
  | read
  | write
deriving DecidableEq, Repr

/-- One end of the pipe made by the `id`-th successful `pipe()` call. -/
structure PipeEnd where
  id : Nat
  side : Side
deriving DecidableEq, Repr

/-- What is written to the standard streams, one value per `printf`/`perror`. -/
inductive Out
  | promptText
  | summaryHeader
  | summaryEntry (index : Nat) (e : CommandStat)
  | blankLine
  | terminatedText
  | historyLine (index : Nat) (command : Option CStr)
  | exitedText
  | perror (what : String)
deriving DecidableEq, Repr

/-- What a forked child does before it leaves the shell's code. -/
inductive ChildAction
  | execvp (file : CStr) (args : List CStr)
  | exitSuccess
  | nullDereference
deriving DecidableEq, Repr

/-- A child created by `fork()` in the spawn loop, with the standard streams it
ends up with (`none`: the stream inherited from the shell). -/
structure Child where
  stage : Nat
  pid : Int
  stdin : Option PipeEnd
  stdout : Option PipeEnd
  action : ChildAction
deriving DecidableEq, Repr

/-- The state of the shell process that the source reads or writes. -/
structure Shell where
  history : CommandHistory
  historyFreed : Bool
  out : List Out
  fds : List (Nat × PipeEnd)
  pipes : Nat
  closed : List PipeEnd
  badClose : List Nat
  children : List Child
  waited : List (Option Int)
deriving DecidableEq, Repr

/-- The process state `main` starts `shellLoop` in. -/
def Shell.init : Shell :=
  { history := initHistory, historyFreed := false, out := [], fds := [], pipes := 0,
    closed := [], badClose := [], children := [], waited := [] }

/-- The operating system as seen by one call of `executeLine`: the two clock
readings, the shell's own pid, whether the `pipe()` call of iteration `i`
succeeds, and the result of the `fork()` call of iteration `i` in the parent
(`none`: `-1`; `some k`: the positive pid `k + 1`). -/
structure Env where
  startTv : Timeval
  endTv : Timeval
  shellPid : Int
  pipeOk : Nat → Bool
  forkResult : Nat → Option Nat

inductive Fault
  | storeOutside (array : String) (index : Int)
  | loadOutside (array : String) (index : Int)
  | nullDereference
deriving DecidableEq, Repr

/-- How a piece of the shell's code ends: it returns a value, the process
terminates through `exit`, or the behaviour is undefined. -/
inductive Ctl
  | ret (status : Int) (s : Shell)
  | exit (code : Nat) (s : Shell)
  | fault (what : Fault) (s : Shell)
deriving DecidableEq, Repr

/-- Sequencing: the statements `k` that follow run only when `c` returns. -/
def Ctl.andThen (c : Ctl) (k : Int → Shell → Ctl) : Ctl :=
  match c with
  | .ret v s => k v s
  | .exit code s => .exit code s
  | .fault w s => .fault w s

def Ctl.shell : Ctl → Shell
  | .ret _ s => s
  | .exit _ s => s
  | .fault _ s => s

def EXIT_SUCCESS : Nat := 0
def EXIT_FAILURE : Nat := 1
def STDIN_FILENO : Nat := 0

def freeHistory (s : Shell) : Shell := { s with historyFreed := true }

/-- The record `entries[i]` as read by the printing loops. -/
def entryAt (h : CommandHistory) (i : Nat) : CommandStat :=
  (h.entries.get? i).getD CommandStat.indeterminate

/-- The lines the loop of `handleSigint` prints. -/
def summaryLines (h : CommandHistory) : List Out :=
  (List.range h.count).map (fun i => Out.summaryEntry (i + 1) (entryAt h i))

def handleSigint (s : Shell) : Ctl :=
  let s1 := { s with out := s.out ++ [Out.summaryHeader] ++ summaryLines s.history
                        ++ [Out.blankLine, Out.terminatedText] }
  .exit EXIT_SUCCESS (freeHistory s1)

/-- The lines `displayHistory` prints: 1-based index and command text. -/
def historyLines (h : CommandHistory) : List Out :=
  (List.range h.count).map (fun i => Out.historyLine (i + 1) (entryAt h i).command)

def displayHistory (s : Shell) : Shell :=
  { s with out := s.out ++ historyLines s.history }

/-- The C library `strcmp`, up to the sign of the result: zero exactly on equal
strings. -/
def strcmp : CStr → CStr → Int
  | [], [] => 0
  | [], _ :: _ => -1
  | _ :: _, [] => 1
  | a :: as, b :: bs =>
    if a = b then strcmp as bs else if a.toNat < b.toNat then -1 else 1

/-- The body of `handleBuiltinCommand`, with the call `handleSigint(0)` of the
`exit` branch as the parameter `sigint`, so that the statement behind the
call, `return 0`, can be spoken of. -/
def handleBuiltinCommandWith (sigint : Shell → Ctl) (args : CArr CharPtr) (s : Shell) : Ctl :=
  match (args.load 0).join with
  | none => .fault Fault.nullDereference s
  | some a0 =>
    if strcmp a0 "exit".toList = 0 then
      (sigint s).andThen (fun _ s1 => .ret 0 s1)
    else if strcmp a0 "history".toList = 0 then
      .ret 1 (displayHistory s)
    else .ret (-1) s

def handleBuiltinCommand (args : CArr CharPtr) (s : Shell) : Ctl :=
  handleBuiltinCommandWith handleSigint args s

/-! ## Descriptors -/

/-- The lowest descriptor number not in `used`. -/
def lowestFree (used : List Nat) : Nat :=
  ((List.range (used.length + 1)).find? (fun n => decide (n ∉ used))).getD (used.length + 1)

/-- Descriptor numbers open in the shell: the three standard streams and the
pipe ends it holds. -/
def openFds (s : Shell) : List Nat := [0, 1, 2] ++ s.fds.map Prod.fst

/-- The system call `pipe(pipeFd)` when it succeeds: the two lowest free
descriptor numbers become the read end and the write end of a new pipe. -/
def pipe (s : Shell) : (Nat × Nat) × Shell :=
  let r := lowestFree (openFds s)
  let w := lowestFree (r :: openFds s)
  ((r, w), { s with fds := s.fds ++ [(r, ⟨s.pipes, Side.read⟩), (w, ⟨s.pipes, Side.write⟩)],
                    pipes := s.pipes + 1 })

/-- The system call `close(fd)`. -/
def close (s : Shell) (fd : Nat) : Shell :=
  match s.fds.lookup fd with
  | some e => { s with fds := s.fds.filter (fun p => p.1 ≠ fd), closed := s.closed ++ [e] }
  | none => { s with badClose := s.badClose ++ [fd] }

/-! ## Command execution -/

/-- The end of the child branch: `parseSpaces(commands[i], args)`, then
`exit(EXIT_SUCCESS)` on an empty argument list and `execvp(args[0], args)`
otherwise. -/
def stageAction (commands : CArr CharPtr) (i : Nat) : ChildAction :=
  match (commands.load i).join with
  | none => ChildAction.nullDereference
  | some c =>
    match argv (parseSpaces c (CArr.fresh MAX_ARGS)) with
    | [] => ChildAction.exitSuccess
    | a0 :: rest => ChildAction.execvp a0 (a0 :: rest)

/-- The child branch of the spawn loop (`pids[i] == 0`), run on the child's copy
of the descriptor table `fds`. -/
def childBranch (fds : List (Nat × PipeEnd)) (commands : CArr CharPtr) (numCmds i : Nat)
    (inFd : Nat) (pipeFd : Option (Nat × Nat)) (pid : Int) : Child :=
  let stdin := if i > 0 then fds.lookup inFd else none
  let stdout := if (i : Int) < (numCmds : Int) - 1 then
      (pipeFd.bind (fun p => fds.lookup p.2)) else none
  { stage := i, pid := pid, stdin := stdin, stdout := stdout, action := stageAction commands i }

/-- The variables the spawn loop carries from one iteration to the next. -/
structure SpawnState where
  shell : Shell
  inFd : Nat
  pids : CArr Int
deriving DecidableEq, Repr

/-- The loop `for (int i = 0; i < numCmds; i++)` of `executeLine`, from
iteration `i` on; the first argument is `numCmds - i`, the iterations left.
The result is `false` when the loop was left through a `return 1`. -/
def spawnLoop (env : Env) (commands : CArr CharPtr) (numCmds : Nat) :
    Nat → Nat → SpawnState → Bool × SpawnState
  | 0, _, st => (true, st)
  | left + 1, i, st =>
    let wantPipe : Bool := decide ((i : Int) < (numCmds : Int) - 1)
    if wantPipe && !env.pipeOk i then
      (false, { st with shell := { st.shell with out := st.shell.out ++ [Out.perror "pipe"] } })
    else
      let made := if wantPipe then (some (pipe st.shell).1, (pipe st.shell).2) else (none, st.shell)
      let pipeFd : Option (Nat × Nat) := made.1
      let s1 : Shell := made.2
      match env.forkResult i with
      | none =>
        (false, { st with shell := { s1 with out := s1.out ++ [Out.perror "fork"] },
                          pids := st.pids.store i (-1) })
      | some k =>
        let pid : Int := (k : Int) + 1
        let child := childBranch s1.fds commands numCmds i st.inFd pipeFd pid
        let s2 := { s1 with children := s1.children ++ [child] }
        let s3 := match pipeFd with
          | some p => close s2 p.2
          | none => s2
        let s4 := if i > 0 then close s3 st.inFd else s3
        let inFd := match pipeFd with
          | some p => p.1
          | none => st.inFd
        spawnLoop env commands numCmds left (i + 1)
          { shell := s4, inFd := inFd, pids := st.pids.store i pid }

/-- The loop `for (int i = 0; i < numCmds; i++) waitpid(pids[i], &status, 0)`. -/
def waitAll (pids : CArr Int) (numCmds : Nat) (s : Shell) : Shell :=
  { s with waited := s.waited ++ (List.range numCmds).map pids.load }

/-- The function `executeLine(line)`.  A store or load outside a local array is
undefined behaviour and ends the run as a `fault`; `external` is the code
from `int inFd = STDIN_FILENO;` to the final `return 1;`. -/
def executeLine (env : Env) (line : CStr) (s : Shell) : Ctl :=
  let originalLine := strncpy line (MAX_LINE_LEN - 1)
  let s := { s with history := addToHistory s.history originalLine }
  let historyIndex := s.history.count - 1
  let parsed := parsePipes originalLine (CArr.fresh MAX_CMDS)
  let numCmds := parsed.1
  let commands := parsed.2
  match commands.oob with
  | j :: _ => .fault (Fault.storeOutside "commands" j) s
  | [] =>
    let s := { s with history := setStartTime s.history historyIndex env.startTv.tv_sec }
    let external : Shell → Ctl := fun s =>
      let r := spawnLoop env commands numCmds numCmds 0
        { shell := s, inFd := STDIN_FILENO, pids := CArr.fresh MAX_CMDS }
      if r.1 = false then .ret 1 r.2.shell
      else
        let s := waitAll r.2.pids numCmds r.2.shell
        let last : Int := (numCmds : Int) - 1
        if last < 0 ∨ (MAX_CMDS : Int) ≤ last then
          .fault (Fault.loadOutside "pids" last) s
        else
          let durationSecs := elapsed env.startTv env.endTv
          let pid := r.2.pids.load last.toNat
          .ret 1 { s with history := finalize s.history historyIndex pid durationSecs }
    if numCmds = 1 then
      match (commands.load 0).join with
      | none => .fault Fault.nullDereference s
      | some c0 =>
        let commandCopy := strncpy c0 (MAX_LINE_LEN - 1)
        let args := parseSpaces commandCopy (CArr.fresh MAX_ARGS)
        match (args.load 0).join with
        | none => .ret 1 s
        | some _ =>
          (handleBuiltinCommand args s).andThen (fun builtinStatus s =>
            if builtinStatus ≠ -1 then
              let durationSecs := elapsed env.startTv env.endTv
              let pid := some env.shellPid
              .ret builtinStatus { s with history := finalize s.history historyIndex pid durationSecs }
            else external s)
    else external s

/-! ## The read-execute loop -/

/-- What `getline` delivers: a line as typed (with its newline, if any), or an
error that is not end of input.  End of input is the end of the input list. -/
inductive Input
  | text (raw : CStr)
  | error
deriving DecidableEq, Repr

/-- The string `readLine` returns for the raw line: cut at the first newline. -/
def chomp (raw : CStr) : CStr := raw.take (strcspn raw ['\n'])

/-- The blank-line test of `shellLoop`:
`strlen(line) == 0 || strspn(line, " \t\n\r") == strlen(line)`. -/
def isBlankLine (line : CStr) : Bool :=
  decide (strlen line = 0) || decide (strspn line [' ', '\t', '\n', '\r'] = strlen line)

/-- One pass through the body of the `do ... while (status)` loop on a line
that `readLine` returned; the value returned is the new `status`. -/
def shellLoopBody (env : Env) (line : CStr) (status : Int) (s : Shell) : Ctl :=
  if isBlankLine line then .ret status s
  else executeLine env line s

/-- The function `shellLoop` run on the given input; the `Int` is `status`.  When the
input is used up `getline` reports end of input and `readLine` calls
`handleSigint`. -/
def shellLoopFrom : List (Env × Input) → Int → Shell → Ctl
  | [], _, s =>
    handleSigint { s with out := s.out ++ [Out.promptText, Out.blankLine] }
  | (env, inp) :: more, status, s =>
    let s := { s with out := s.out ++ [Out.promptText] }
    match inp with
    | Input.error => .exit EXIT_FAILURE { s with out := s.out ++ [Out.perror "getline"] }
    | Input.text raw =>
      (shellLoopBody env (chomp raw) status s).andThen (fun status s =>
        if status ≠ 0 then shellLoopFrom more status s
        else .ret 0 (freeHistory { s with out := s.out ++ [Out.exitedText] }))

def shellLoop (input : List (Env × Input)) (s : Shell) : Ctl :=
  shellLoopFrom input 1 s

/-- The entry point `main`: `initHistory(&history); shellLoop();`. -/
def main (input : List (Env × Input)) : Ctl :=
  shellLoop input Shell.init

/-! ## Reference notions used to state the properties -/

/-- The segments of `line` between pipe characters, left to right. -/
def segments (line : CStr) : List CStr := line.splitOn '|'

/-- The maximal non-empty runs of characters of `s` that are not in `delim`,
left to right. -/
def fields (delim : CStr) (s : CStr) : List CStr :=
  (s.splitOnP (fun c => decide (c ∈ delim))).filter (fun t => !t.isEmpty)

/-- The tokens still to come when `strtok` has just returned `token` and saved
`save`. -/
def pending (delim : CStr) (token : Option CStr) (save : CStr) : List CStr :=
  match token with
  | none => []
  | some t => t :: fields delim save

/-- The stores `arr[i] = ts[0]; arr[i+1] = ts[1]; ...` in order. -/
def storeAll (arr : CArr CharPtr) : Nat → List CStr → CArr CharPtr
  | _, [] => arr
  | i, t :: ts => storeAll (arr.store i (some t)) (i + 1) ts

/-- Whitespace as the tokenizer sees it: space, tab, carriage return, newline,
bell. -/
def isWhitespace (c : Char) : Bool := decide (c ∈ SPACE_DELIM)

/-- Each maximal run of whitespace replaced by one space: a whitespace
character followed by another one is dropped, the last of a run becomes a
space. -/
def collapseRuns : CStr → CStr
  | [] => []
  | c :: rest =>
    if isWhitespace c then
      match rest with
      | [] => [' ']
      | d :: _ => if isWhitespace d then collapseRuns rest else ' ' :: collapseRuns rest
    else c :: collapseRuns rest

/-- Leading and trailing whitespace removed. -/
def trim (s : CStr) : CStr := (s.dropWhile isWhitespace).rdropWhile isWhitespace

/-- The text `s` with runs of whitespace collapsed to one space and leading and
trailing whitespace removed. -/
def normalizeWs (s : CStr) : CStr := trim (collapseRuns s)

/-- Tokens joined by single spaces. -/
def joinSpaces (tokens : List CStr) : CStr := [' '].intercalate tokens

/-- The records `entries[0..count-1]`, as the loop of `displayHistory` visits
them. -/
def iterate (h : CommandHistory) : List CommandStat :=
  (List.range h.count).map (entryAt h)

/-- An operation on the ledger: an `addToHistory` call or the pair of stores
that fills `pid` and `durationSecs` of a record. -/
inductive LedgerOp
  | append (text : CStr)
  | fill (index : Nat) (pid : Option Int) (d : Duration)
deriving DecidableEq, Repr

def applyOp (h : CommandHistory) : LedgerOp → CommandHistory
  | .append text => addToHistory h text
  | .fill index pid d => finalize h index pid d

def runOps (h : CommandHistory) (ops : List LedgerOp) : CommandHistory :=
  ops.foldl applyOp h

/-- The texts appended by `ops`, in order. -/
def appended : List LedgerOp → List CStr
  | [] => []
  | .append text :: ops => text :: appended ops
  | .fill _ _ _ :: ops => appended ops

/-- Every `fill` of `ops` addresses a record that exists when it runs, `count`
records existing at the start. -/
def fillsExisting : Nat → List LedgerOp → Bool
  | _, [] => true
  | count, .append _ :: ops => fillsExisting (count + 1) ops
  | count, .fill index _ _ :: ops => decide (index < count) && fillsExisting count ops

/-- The ledger after `addToHistory` was called on each text in turn, starting
from `initHistory`. -/
def ledgerAfter (texts : List CStr) : CommandHistory :=
  texts.foldl addToHistory initHistory

def INT_MAX : Nat := 2147483647

/-- The block of `entries` has `capacity` elements and holds the `count`
records in use. -/
def LedgerInv (h : CommandHistory) : Prop :=
  h.entries.length = h.capacity ∧ h.count ≤ h.capacity ∧
    ∃ k, h.capacity = INITIAL_HISTORY_CAPACITY * 2 ^ k

/-- Both ends of the `n` pipes with ids `p`, `p + 1`, ..., `p + n - 1`. -/
def pipeEnds (p : Nat) : Nat → List PipeEnd
  | 0 => []
  | n + 1 => ⟨p, Side.write⟩ :: ⟨p, Side.read⟩ :: pipeEnds (p + 1) n

/-- The value `fork()` returns to the parent in iteration `i`. -/
def forkPid (env : Env) (i : Nat) : Int :=
  match env.forkResult i with
  | some k => (k : Int) + 1
  | none => -1

/-- The child expected for stage `i` of `numCmds` when the first pipe of the
pipeline has id `p`: it reads the pipe made one iteration earlier and writes
the pipe made in its own iteration. -/
def expectedChild (env : Env) (commands : CArr CharPtr) (p numCmds i : Nat) : Child :=
  { stage := i
    pid := forkPid env i
    stdin := if 0 < i then some ⟨p + i - 1, Side.read⟩ else none
    stdout := if i + 1 < numCmds then some ⟨p + i, Side.write⟩ else none
    action := stageAction commands i }

/-- What the parent closes in iteration `j` of a pipeline of `numCmds` stages
whose first pipe has id `p`: the write end of the pipe it has just made, then
the read end of the pipe made one iteration earlier. -/
def closesAt (p numCmds j : Nat) : List PipeEnd :=
  (if j + 1 < numCmds then [⟨p + j, Side.write⟩] else []) ++
    (if 0 < j then [⟨p + j - 1, Side.read⟩] else [])

/-- The state of the spawn loop at the head of iteration `i`: `i` pipes made
since the loop began, and the only descriptor held beyond the table `F` the
loop started with is `inFd`, the read end of the pipe made one iteration
earlier. -/
def SpawnHead (F : List (Nat × PipeEnd)) (p i : Nat) (st : SpawnState) : Prop :=
  st.shell.pipes = p + i ∧
    st.shell.fds = F ++ (if i = 0 then [] else [(st.inFd, ⟨p + i - 1, Side.read⟩)]) ∧
    (0 < i → st.inFd ∉ F.map Prod.fst)

/-- A line of sixteen one-letter stages: `a|a|...|a`. -/
def sixteenStages : CStr := ['|'].intercalate (List.replicate 16 ['a'])

/-- A stage text of sixty-four one-letter words: `a a ... a`. -/
def sixtyFourWords : CStr := [' '].intercalate (List.replicate 64 ['a'])

/-- A shell whose ledger holds the two records of `ls` and `exit`. -/
def twoRecordShell : Shell :=
  { Shell.init with history := ledgerAfter ["ls".toList, "exit".toList] }

/-- An environment in which every `pipe()` and `fork()` succeeds. -/
def sampleEnv : Env :=
  { startTv := ⟨100, 0⟩, endTv := ⟨101, 500⟩, shellPid := 4242,
    pipeOk := fun _ => true, forkResult := fun i => some (1000 + i) }

/-! ## `strtok` and the token loop -/

theorem take_takeWhile_length (p : Char → Bool) (l : CStr) :
    l.take (l.takeWhile p).length = l.takeWhile p := by
  induction l with
  | nil => simp
  | cons a l ih =>
    by_cases h : p a <;> simp [List.takeWhile_cons, h, ih]

theorem drop_takeWhile_length (p : Char → Bool) (l : CStr) :
    l.drop (l.takeWhile p).length = l.dropWhile p := by
  induction l with
  | nil => simp
  | cons a l ih =>
    by_cases h : p a <;> simp [List.takeWhile_cons, List.dropWhile_cons, h, ih]

theorem fields_nil (delim : CStr) : fields delim [] = [] := by
  simp [fields, List.splitOnP_nil]

theorem fields_cons_delim (delim : CStr) (c : Char) (cs : CStr) (h : c ∈ delim) :
    fields delim (c :: cs) = fields delim cs := by
  simp [fields, List.splitOnP_cons, h]

theorem fields_dropWhile (delim : CStr) (s : CStr) :
    fields delim (s.dropWhile (fun c => decide (c ∈ delim))) = fields delim s := by
  induction s with
  | nil => simp
  | cons a l ih =>
    by_cases h : a ∈ delim
    · simp [List.dropWhile_cons, h, ih, fields_cons_delim]
    · simp [List.dropWhile_cons, h]

/-- A list splits at its first delimiter: the run before it, then the split
of what follows the delimiter. -/
theorem splitOnP_takeWhile (p : Char → Bool) (q : CStr) :
    q.splitOnP p = q.takeWhile (fun c => !p c) ::
      (match q.dropWhile (fun c => !p c) with
        | [] => []
        | _ :: r => r.splitOnP p) := by
  induction q with
  | nil => simp [List.splitOnP_nil]
  | cons a l ih =>
    by_cases h : p a
    · simp [List.splitOnP_cons, h, List.takeWhile_cons, List.dropWhile_cons]
    · rw [List.splitOnP_cons, ih]
      simp [h, List.takeWhile_cons, List.dropWhile_cons, List.modifyHead]

theorem fields_cons_nondelim (delim : CStr) (c : Char) (cs : CStr) (h : c ∉ delim) :
    fields delim (c :: cs) =
      (c :: cs).takeWhile (fun x => !decide (x ∈ delim)) ::
        (match (c :: cs).dropWhile (fun x => !decide (x ∈ delim)) with
          | [] => []
          | _ :: r => fields delim r) := by
  unfold fields
  rw [splitOnP_takeWhile]
  have hne : ((c :: cs).takeWhile (fun x => !decide (x ∈ delim))).isEmpty = false := by
    simp [List.takeWhile_cons, h]
  rw [List.filter_cons]
  simp only [hne, Bool.not_false, if_true]
  congr 1
  cases (c :: cs).dropWhile (fun x => !decide (x ∈ delim)) <;> simp

theorem dropWhile_head_not (p : Char → Bool) (l : CStr) (c : Char) (cs : CStr)
    (h : l.dropWhile p = c :: cs) : p c = false := by
  induction l with
  | nil => simp at h
  | cons a l ih =>
    by_cases ha : p a
    · rw [List.dropWhile_cons, if_pos ha] at h
      exact ih h
    · rw [List.dropWhile_cons, if_neg ha] at h
      cases h
      simpa using ha

/-- What `strtok` returns and saves accounts for all the fields of the string
it scanned. -/
theorem strtokAt_pending (p0 delim : CStr) :
    pending delim (strtokAt p0 delim).1 (strtokAt p0 delim).2 = fields delim p0 := by
  unfold strtokAt strspn
  rw [drop_takeWhile_length, ← fields_dropWhile delim p0]
  have hhead := dropWhile_head_not (fun c => decide (c ∈ delim)) p0
  revert hhead
  generalize p0.dropWhile (fun c => decide (c ∈ delim)) = p
  intro hhead
  cases p with
  | nil => simp [pending, fields_nil]
  | cons c cs =>
    have h : c ∉ delim := by simpa using hhead c cs rfl
    simp only [strcspn]
    rw [drop_takeWhile_length, take_takeWhile_length, fields_cons_nondelim delim c cs h]
    cases hq : (c :: cs).dropWhile (fun x => !decide (x ∈ delim)) <;>
      simp [pending, fields_nil]

theorem strtok_pending_none (delim save : CStr) :
    pending delim (strtok none delim save).1 (strtok none delim save).2 = fields delim save :=
  strtokAt_pending save delim

theorem strtok_pending_some (delim str save : CStr) :
    pending delim (strtok (some str) delim save).1 (strtok (some str) delim save).2 =
      fields delim str :=
  strtokAt_pending str delim

/-- The token loop stores the pending tokens, at most `limit - i` of them, and
returns the index behind the last one stored; any fuel above `limit - i`
gives this result. -/
theorem tokenLoop_eq (delim : CStr) (limit : Nat) :
    ∀ (fuel : Nat) (token : Option CStr) (save : CStr) (i : Nat) (arr : CArr CharPtr),
      limit - i < fuel →
      tokenLoop delim limit fuel token save i arr =
        (i + ((pending delim token save).take (limit - i)).length,
          storeAll arr i ((pending delim token save).take (limit - i))) := by
  intro fuel
  induction fuel with
  | zero => intro token save i arr h; omega
  | succ fuel ih =>
    intro token save i arr h
    cases token with
    | none => simp [tokenLoop, pending, storeAll]
    | some t =>
      by_cases hi : i < limit
      · have hfuel : limit - (i + 1) < fuel := by omega
        have hstep : limit - i = (limit - (i + 1)) + 1 := by omega
        simp only [tokenLoop, if_pos hi]
        rw [ih _ _ _ _ hfuel, strtok_pending_none]
        simp only [pending]
        rw [hstep, List.take_succ_cons]
        simp only [List.length_cons, storeAll]
        congr 1
        omega
      · have hz : limit - i = 0 := by omega
        simp [tokenLoop, hi, hz, storeAll]

/-- More fuel than `limit + 1` does not change what the token loop returns. -/
theorem tokenLoop_fuel (delim : CStr) (limit fuel : Nat) (token : Option CStr) (save : CStr)
    (arr : CArr CharPtr) (h : limit < fuel) :
    tokenLoop delim limit fuel token save 0 arr =
      tokenLoop delim limit (limit + 1) token save 0 arr := by
  rw [tokenLoop_eq delim limit fuel token save 0 arr (by omega),
    tokenLoop_eq delim limit (limit + 1) token save 0 arr (by omega)]

/-! ## Stores into a local array -/

theorem storeAll_oob (ts : List CStr) :
    ∀ (arr : CArr CharPtr) (i : Nat), i + ts.length ≤ arr.cells.length →
      (storeAll arr i ts).oob = arr.oob ∧
      (storeAll arr i ts).cells.length = arr.cells.length := by
  induction ts with
  | nil => intro arr i _; simp [storeAll]
  | cons t ts ih =>
    intro arr i h
    simp only [List.length_cons] at h
    have hi : i < arr.cells.length := by omega
    have hlen : (arr.store i (some t)).cells.length = arr.cells.length := by
      simp [CArr.store, hi]
    have hoob : (arr.store i (some t)).oob = arr.oob := by
      simp [CArr.store, hi]
    have := ih (arr.store i (some t)) (i + 1) (by rw [hlen]; omega)
    simp only [storeAll]
    rw [this.1, this.2, hoob, hlen]
    exact ⟨rfl, rfl⟩

theorem storeAll_load (ts : List CStr) :
    ∀ (arr : CArr CharPtr) (i j : Nat), i + ts.length ≤ arr.cells.length →
      (storeAll arr i ts).load j =
        if i ≤ j ∧ j < i + ts.length then (ts.get? (j - i)).map some else arr.load j := by
  induction ts with
  | nil =>
    intro arr i j _
    simp only [storeAll, List.length_nil, Nat.add_zero]
    rw [if_neg (by omega)]
  | cons t ts ih =>
    intro arr i j h
    simp only [List.length_cons] at h
    have hi : i < arr.cells.length := by omega
    have hlen : (arr.store i (some t)).cells.length = arr.cells.length := by
      simp [CArr.store, hi]
    simp only [storeAll]
    rw [ih (arr.store i (some t)) (i + 1) j (by rw [hlen]; omega)]
    by_cases h1 : i + 1 ≤ j ∧ j < i + 1 + ts.length
    · have h2 : i ≤ j ∧ j < i + (t :: ts).length := by simp; omega
      have h3 : j - i = (j - (i + 1)) + 1 := by omega
      rw [if_pos h1, if_pos h2, h3]
      simp
    · rw [if_neg h1]
      by_cases h4 : j = i
      · subst h4
        simp [CArr.store, CArr.load, hi]
      · have h2 : ¬ (i ≤ j ∧ j < i + (t :: ts).length) := by simp at h1 ⊢; omega
        rw [if_neg h2]
        simp [CArr.store, CArr.load, hi, List.getElem?_set, Ne.symm h4]

theorem load_store {α : Type} (a : CArr α) (i j : Nat) (v : α) :
    (a.store i v).load j = if j = i ∧ i < a.cells.length then some v else a.load j := by
  unfold CArr.store CArr.load
  by_cases hi : i < a.cells.length
  · by_cases hj : j = i
    · subst hj; simp [hi]
    · simp [hi, hj, List.getElem?_set, Ne.symm hj]
  · simp [hi]

theorem map_get?_range (l : List CStr) :
    (List.range l.length).map (fun j => l.get? j) = l.map some := by
  apply List.ext_getElem?
  intro n
  by_cases h : n < l.length
  · simp [List.getElem?_map, List.getElem?_range, h, List.getElem?_eq_getElem]
  · simp [List.getElem?_map, List.getElem?_eq_none, Nat.le_of_not_lt, h]

theorem fresh_length {α : Type} (n : Nat) : (CArr.fresh n : CArr α).cells.length = n := by
  simp [CArr.fresh]

theorem fresh_oob {α : Type} (n : Nat) : (CArr.fresh n : CArr α).oob = [] := rfl

theorem fresh_load {α : Type} (n j : Nat) : (CArr.fresh n : CArr α).load j = none := by
  unfold CArr.fresh CArr.load
  by_cases h : j < n
  · simp [List.getElem?_replicate, h]
  · simp [List.getElem?_replicate, h]

/-- What `parsePipes` returns: the first `MAX_CMDS` fields stored from index 0
on, then the terminator behind them. -/
theorem parsePipes_eq (line : CStr) (commands : CArr CharPtr) :
    parsePipes line commands =
      (((fields PIPE_DELIM line).take MAX_CMDS).length,
        (storeAll commands 0 ((fields PIPE_DELIM line).take MAX_CMDS)).store
          ((fields PIPE_DELIM line).take MAX_CMDS).length none) := by
  unfold parsePipes
  simp only []
  rw [tokenLoop_eq PIPE_DELIM MAX_CMDS (MAX_CMDS + 1) _ _ 0 commands (by omega),
    strtok_pending_some]
  simp

/-- What `parseSpaces` leaves in `args`: the first `MAX_ARGS - 1` fields stored
from index 0 on, then the terminator behind them. -/
theorem parseSpaces_eq (command : CStr) (args : CArr CharPtr) :
    parseSpaces command args =
      (storeAll args 0 ((fields SPACE_DELIM command).take (MAX_ARGS - 1))).store
        ((fields SPACE_DELIM command).take (MAX_ARGS - 1)).length none := by
  unfold parseSpaces
  simp only []
  rw [tokenLoop_eq SPACE_DELIM (MAX_ARGS - 1) MAX_ARGS _ _ 0 args (by simp [MAX_ARGS]),
    strtok_pending_some]
  simp

theorem stages_store_storeAll (ts : List CStr) (n : Nat) (h : ts.length < n) :
    stages (ts.length, (storeAll (CArr.fresh n) 0 ts).store ts.length none) =
      some (ts.map some) := by
  have hfit : 0 + ts.length ≤ (CArr.fresh n : CArr CharPtr).cells.length := by
    simp only [fresh_length]; omega
  have hst := storeAll_oob ts (CArr.fresh n) 0 hfit
  rw [fresh_length, fresh_oob] at hst
  have hoob : ((storeAll (CArr.fresh n) 0 ts).store ts.length none).oob = [] := by
    unfold CArr.store
    rw [hst.2, if_pos h]
    exact hst.1
  unfold stages
  rw [if_pos hoob, ← map_get?_range]
  congr 1
  apply List.map_congr_left
  intro j hj
  have hj' : j < ts.length := by simpa using hj
  show ((CArr.store (storeAll (CArr.fresh n) 0 ts) ts.length none).load j).join = ts.get? j
  rw [load_store, if_neg (by omega), storeAll_load ts _ 0 j hfit]
  simp [hj']

/-- On a line with fewer than `MAX_CMDS` fields every store of `parsePipes` is
inside `commands` and the stages are the fields. -/
theorem stages_parsePipes (line : CStr) (h : (fields PIPE_DELIM line).length < MAX_CMDS) :
    stages (parsePipes line (CArr.fresh MAX_CMDS)) =
      some ((fields PIPE_DELIM line).map some) := by
  rw [parsePipes_eq, List.take_of_length_le (Nat.le_of_lt h)]
  exact stages_store_storeAll _ MAX_CMDS h

theorem fields_pipe_eq (line : CStr) :
    fields PIPE_DELIM line = (segments line).filter (fun t => !t.isEmpty) := by
  unfold fields segments List.splitOn PIPE_DELIM
  have hp : (fun c : Char => decide (c ∈ ['|'])) = (fun c => c == '|') := by
    funext c
    by_cases h : c = '|' <;> simp [h]
  rw [hp]

theorem length_splitOnP (p : Char → Bool) (l : CStr) :
    (l.splitOnP p).length = l.countP p + 1 := by
  induction l with
  | nil => simp [List.splitOnP_nil]
  | cons a l ih =>
    by_cases h : p a
    · simp [List.splitOnP_cons, h, ih]
    · rw [List.splitOnP_cons, if_neg h]
      have hne := List.splitOnP_ne_nil p l
      cases hs : l.splitOnP p with
      | nil => exact absurd hs hne
      | cons x xs =>
        rw [hs] at ih
        simp [List.modifyHead, h] at ih ⊢
        exact ih

theorem length_segments (line : CStr) : (segments line).length = line.count '|' + 1 := by
  unfold segments List.splitOn
  rw [length_splitOnP]
  rfl

theorem parsePipes_count (line : CStr) (commands : CArr CharPtr) :
    (parsePipes line commands).1 =
      min ((segments line).filter (fun t => !t.isEmpty)).length MAX_CMDS := by
  rw [parsePipes_eq, fields_pipe_eq]
  simp [List.length_take, Nat.min_comm]

theorem parsePipes_oob (line : CStr) :
    (parsePipes line (CArr.fresh MAX_CMDS)).2.oob =
      if ((segments line).filter (fun t => !t.isEmpty)).length < MAX_CMDS then []
      else [MAX_CMDS] := by
  rw [parsePipes_eq, fields_pipe_eq]
  generalize hts : ((segments line).filter (fun t => !t.isEmpty)).take MAX_CMDS = ts
  have hlen : ts.length = min MAX_CMDS ((segments line).filter (fun t => !t.isEmpty)).length := by
    rw [← hts, List.length_take]
  have hle : ts.length ≤ MAX_CMDS := by omega
  have h := storeAll_oob ts (CArr.fresh MAX_CMDS) 0 (by simp [fresh_length]; omega)
  rw [fresh_length, fresh_oob] at h
  unfold CArr.store
  rw [h.2]
  by_cases hlt : ((segments line).filter (fun t => !t.isEmpty)).length < MAX_CMDS
  · have : ts.length < MAX_CMDS := by omega
    simp [this, hlt, h.1]
  · have : ¬ ts.length < MAX_CMDS := by omega
    have h16 : ts.length = MAX_CMDS := by omega
    simp [this, hlt, h.1, h16]

/-- Every store of `parseSpaces` into a `MAX_ARGS`-element array, the terminator
included, is inside the array. -/
theorem parseSpaces_oob (command : CStr) :
    (parseSpaces command (CArr.fresh MAX_ARGS)).oob = [] := by
  rw [parseSpaces_eq]
  generalize hts : (fields SPACE_DELIM command).take (MAX_ARGS - 1) = ts
  have hlen : ts.length ≤ MAX_ARGS - 1 := by
    rw [← hts, List.length_take]; omega
  have hM : MAX_ARGS = 64 := rfl
  have h := storeAll_oob ts (CArr.fresh MAX_ARGS) 0 (by simp [fresh_length]; omega)
  rw [fresh_length, fresh_oob] at h
  unfold CArr.store
  rw [h.2, if_pos (by omega)]
  exact h.1

/-- C1 (as amended): on a line with fewer than `MAX_CMDS` non-empty segments
between pipe characters, `parsePipes` returns exactly `m` stages, `m` being the
number of non-empty segments, every store (the terminator included) is inside
`commands`, and the stages are the non-empty segments in left-to-right order;
when no segment is empty this is `k + 1` stages for `k` pipe characters, the
segments themselves; the empty line yields no stage. -/
theorem parsePipes_stages_nonempty_segments (L : CStr) (hnul : '\x00' ∉ L)
    (hlen : L.length < MAX_LINE_LEN)
    (hfit : ((segments L).filter (fun t => !t.isEmpty)).length < MAX_CMDS) :
    (parsePipes L (CArr.fresh MAX_CMDS)).1 =
        ((segments L).filter (fun t => !t.isEmpty)).length ∧
      (parsePipes L (CArr.fresh MAX_CMDS)).1 =
        min ((segments L).filter (fun t => !t.isEmpty)).length MAX_CMDS ∧
      (parsePipes L (CArr.fresh MAX_CMDS)).2.oob = [] ∧
      stages (parsePipes L (CArr.fresh MAX_CMDS)) =
        some (((segments L).filter (fun t => !t.isEmpty)).map some) ∧
      ((∀ t ∈ segments L, t ≠ []) →
        (parsePipes L (CArr.fresh MAX_CMDS)).1 = L.count '|' + 1 ∧
        (parsePipes L (CArr.fresh MAX_CMDS)).1 = min (L.count '|' + 1) MAX_CMDS ∧
        stages (parsePipes L (CArr.fresh MAX_CMDS)) = some ((segments L).map some)) ∧
      (L = [] → (parsePipes L (CArr.fresh MAX_CMDS)).1 = 0 ∧
        stages (parsePipes L (CArr.fresh MAX_CMDS)) = some []) := by
  have hfilter : (∀ t ∈ segments L, t ≠ []) →
      (segments L).filter (fun t => !t.isEmpty) = segments L := by
    intro h
    apply List.filter_eq_self.mpr
    intro t ht
    have := h t ht
    cases t with
    | nil => exact absurd rfl this
    | cons a l => rfl
  have hfields : (fields PIPE_DELIM L).length < MAX_CMDS := by
    rw [fields_pipe_eq]; exact hfit
  have hcount : (parsePipes L (CArr.fresh MAX_CMDS)).1 =
      ((segments L).filter (fun t => !t.isEmpty)).length := by
    rw [parsePipes_count]; omega
  have hstages : stages (parsePipes L (CArr.fresh MAX_CMDS)) =
      some (((segments L).filter (fun t => !t.isEmpty)).map some) := by
    rw [stages_parsePipes L hfields, fields_pipe_eq]
  refine ⟨hcount, parsePipes_count L _, ?_, hstages, ?_, ?_⟩
  · rw [parsePipes_oob, if_pos hfit]
  · intro h
    have hseg := hfilter h
    have hk : (segments L).length = L.count '|' + 1 := length_segments L
    refine ⟨?_, ?_, ?_⟩
    · rw [hcount, hseg, hk]
    · rw [hcount, hseg, hk]
      rw [hseg, hk] at hfit
      omega
    · rw [hstages, hseg]
  · intro h
    subst h
    exact ⟨by decide, by decide⟩

theorem parsePipes_stages_nonempty_segments_witness :
    '\x00' ∉ "ls -l | wc".toList ∧ "ls -l | wc".toList.length < MAX_LINE_LEN ∧
      ((segments "ls -l | wc".toList).filter (fun t => !t.isEmpty)).length < MAX_CMDS ∧
      stages (parsePipes "ls -l | wc".toList (CArr.fresh MAX_CMDS)) =
        some [some "ls -l ".toList, some " wc".toList] :=
  ⟨by decide, by decide, by decide,
    (parsePipes_stages_nonempty_segments "ls -l | wc".toList (by decide) (by decide)
      (by decide)).2.2.2.1.trans (by decide)⟩

/-- C1 as stated fails on the empty line: it has no pipe character, yet the
number of stages returned is 0, not `min(0 + 1, MAX_CMDS) = 1`, and there is
no empty-string stage. -/
theorem parsePipes_empty_line_counterexample :
    '\x00' ∉ ([] : CStr) ∧ ([] : CStr).length < MAX_LINE_LEN ∧
      ¬ ((parsePipes [] (CArr.fresh MAX_CMDS)).1 = min (List.count '|' ([] : CStr) + 1) MAX_CMDS) ∧
      ¬ (stages (parsePipes [] (CArr.fresh MAX_CMDS)) = some ((segments []).map some)) ∧
      (parsePipes [] (CArr.fresh MAX_CMDS)).1 = 0 ∧
      stages (parsePipes [] (CArr.fresh MAX_CMDS)) = some [] := by
  decide

/-- At sixteen stages there is nothing a caller may read. -/
theorem stages_sixteenStages : stages (parsePipes sixteenStages (CArr.fresh MAX_CMDS)) = none := by
  decide

/-- C10 at sixteen stages: after storing `commands[0..15]` the loop of `parsePipes`
leaves with `i = 16` and the terminator store `commands[i] = NULL` falls
outside the `MAX_CMDS`-element array; this happens on every line with
`MAX_CMDS` or more non-empty segments and on no other line, while `parseSpaces`
keeps every store, the terminator included, inside `args`. -/
theorem parsePipes_sixteen_stages_terminator_outside (line command : CStr) :
    (parsePipes sixteenStages (CArr.fresh MAX_CMDS)).1 = MAX_CMDS ∧
      (parsePipes sixteenStages (CArr.fresh MAX_CMDS)).2.oob = [MAX_CMDS] ∧
      (parsePipes line (CArr.fresh MAX_CMDS)).2.oob =
        (if ((segments line).filter (fun t => !t.isEmpty)).length < MAX_CMDS then []
          else [MAX_CMDS]) ∧
      (parseSpaces command (CArr.fresh MAX_ARGS)).oob = [] :=
  ⟨by decide, by decide, parsePipes_oob line, parseSpaces_oob command⟩

/-! ## Tokens and whitespace -/

theorem rdropWhile_append_of_ne_nil (p : Char → Bool) (a b : CStr)
    (h : b.rdropWhile p ≠ []) : (a ++ b).rdropWhile p = a ++ b.rdropWhile p := by
  unfold List.rdropWhile at h ⊢
  have hne : (b.reverse.dropWhile p).isEmpty = false := by
    cases hb : b.reverse.dropWhile p with
    | nil => simp [hb] at h
    | cons x xs => rfl
  rw [List.reverse_append, List.dropWhile_append, hne]
  simp

theorem rdropWhile_append_of_nil (p : Char → Bool) (a b : CStr)
    (h : b.rdropWhile p = []) : (a ++ b).rdropWhile p = a.rdropWhile p := by
  unfold List.rdropWhile at h ⊢
  have hnil : b.reverse.dropWhile p = [] := by simpa using h
  rw [List.reverse_append, List.dropWhile_append, hnil]
  simp

theorem joinSpaces_nil : joinSpaces [] = [] := rfl

theorem joinSpaces_single (t : CStr) : joinSpaces [t] = t := by
  simp [joinSpaces, List.intercalate, List.intersperse]

theorem joinSpaces_cons_cons (t u : CStr) (us : List CStr) :
    joinSpaces (t :: u :: us) = t ++ ' ' :: joinSpaces (u :: us) := by
  simp [joinSpaces, List.intercalate, List.intersperse]

theorem isWhitespace_space : isWhitespace ' ' = true := by decide

theorem collapseRuns_cons_ws (d : Char) (r : CStr) (hd : isWhitespace d = true) :
    collapseRuns (d :: r) = ' ' :: collapseRuns (r.dropWhile isWhitespace) := by
  induction r generalizing d with
  | nil => simp [collapseRuns, hd]
  | cons e r ih =>
    by_cases he : isWhitespace e = true
    · have h1 : collapseRuns (d :: e :: r) = collapseRuns (e :: r) := by
        simp [collapseRuns, hd, he]
      rw [h1, ih e he, List.dropWhile_cons, if_pos he]
    · have h1 : collapseRuns (d :: e :: r) = ' ' :: collapseRuns (e :: r) := by
        simp [collapseRuns, hd, he]
      rw [h1, List.dropWhile_cons, if_neg he]

theorem collapseRuns_cons_nonws (c : Char) (r : CStr) (hc : isWhitespace c = false) :
    collapseRuns (c :: r) = c :: collapseRuns r := by
  simp [collapseRuns, hc]

theorem collapseRuns_takeWhile (s : CStr) :
    collapseRuns s =
      s.takeWhile (fun c => !isWhitespace c) ++
        collapseRuns (s.dropWhile (fun c => !isWhitespace c)) := by
  induction s with
  | nil => simp [collapseRuns]
  | cons c r ih =>
    by_cases hc : isWhitespace c = true
    · simp [List.takeWhile_cons, List.dropWhile_cons, hc]
    · have hc' : isWhitespace c = false := by simpa using hc
      rw [collapseRuns_cons_nonws c r hc', ih]
      simp [List.takeWhile_cons, List.dropWhile_cons, hc']

theorem normalizeWs_cons_ws (d : Char) (r : CStr) (hd : isWhitespace d = true) :
    normalizeWs (d :: r) = normalizeWs (r.dropWhile isWhitespace) := by
  unfold normalizeWs trim
  rw [collapseRuns_cons_ws d r hd, List.dropWhile_cons, if_pos isWhitespace_space]

theorem fields_space_dropWhile (s : CStr) :
    fields SPACE_DELIM (s.dropWhile isWhitespace) = fields SPACE_DELIM s :=
  fields_dropWhile SPACE_DELIM s

theorem takeWhile_all_not (p : Char → Bool) (s : CStr) :
    ∀ x ∈ s.takeWhile (fun c => !p c), p x = false := by
  intro x hx
  have := List.mem_takeWhile_imp hx
  simpa using this

/-- A run of non-whitespace characters is untouched by `trim`. -/
theorem rdropWhile_of_all_not (t : CStr) (ht : ∀ x ∈ t, isWhitespace x = false) :
    t.rdropWhile isWhitespace = t := by
  rw [List.rdropWhile_eq_self_iff]
  intro hl
  have := ht _ (List.getLast_mem hl)
  simp [this]

/-- The fields of a text joined by single spaces are the text with its runs
of whitespace collapsed and its ends trimmed. -/
theorem joinSpaces_fields_aux :
    ∀ (n : Nat) (s : CStr), s.length ≤ n →
      joinSpaces (fields SPACE_DELIM s) = normalizeWs s ∧
      (∀ c r, s = c :: r → isWhitespace c = false →
        fields SPACE_DELIM s ≠ [] ∧ normalizeWs s = (collapseRuns s).rdropWhile isWhitespace ∧
        (collapseRuns s).rdropWhile isWhitespace ≠ []) := by
  intro n
  induction n with
  | zero =>
    intro s hs
    have : s = [] := List.length_eq_zero.mp (by omega)
    subst this
    refine ⟨by decide, ?_⟩
    intro c r h
    cases h
  | succ n ih =>
    intro s hs
    cases s with
    | nil =>
      refine ⟨by decide, ?_⟩
      intro c r h
      cases h
    | cons c r =>
      by_cases hc : isWhitespace c = true
      · refine ⟨?_, ?_⟩
        · have hmem : c ∈ SPACE_DELIM := by simpa [isWhitespace] using hc
          rw [fields_cons_delim SPACE_DELIM c r hmem, normalizeWs_cons_ws c r hc,
            ← fields_space_dropWhile r]
          refine (ih _ ?_).1
          have := (List.dropWhile_sublist isWhitespace : List.Sublist (r.dropWhile isWhitespace) r).length_le
          simp only [List.length_cons] at hs
          omega
        · intro c' r' h hc'
          cases h
          rw [hc] at hc'
          cases hc'
      · have hc' : isWhitespace c = false := by simpa using hc
        have hnot : c ∉ SPACE_DELIM := by simpa [isWhitespace] using hc'
        -- the first token and what follows it
        have hfields := fields_cons_nondelim SPACE_DELIM c r hnot
        have hcollapse := collapseRuns_takeWhile (c :: r)
        have htok : ∀ x ∈ (c :: r).takeWhile (fun x => !isWhitespace x),
            isWhitespace x = false := takeWhile_all_not isWhitespace (c :: r)
        have hhead : (c :: r).takeWhile (fun x => !isWhitespace x) =
            c :: r.takeWhile (fun x => !isWhitespace x) := by
          simp [List.takeWhile_cons, hc']
        have hpred : (fun x => !decide (x ∈ SPACE_DELIM)) = (fun x => !isWhitespace x) := rfl
        rw [hpred] at hfields
        have hdw : (collapseRuns (c :: r)).dropWhile isWhitespace = collapseRuns (c :: r) := by
          rw [collapseRuns_cons_nonws c r hc', List.dropWhile_cons]
          simp [hc']
        have hlenD : ((c :: r).dropWhile (fun x => !isWhitespace x)).length ≤ n := by
          rw [List.dropWhile_cons]
          simp only [hc', Bool.not_false, if_true]
          have := (List.dropWhile_sublist (fun x => !isWhitespace x) :
            List.Sublist (r.dropWhile (fun x => !isWhitespace x)) r).length_le
          simp only [List.length_cons] at hs
          omega
        have key : fields SPACE_DELIM (c :: r) ≠ [] ∧
            joinSpaces (fields SPACE_DELIM (c :: r)) =
              (collapseRuns (c :: r)).rdropWhile isWhitespace ∧
            (collapseRuns (c :: r)).rdropWhile isWhitespace ≠ [] := by
          rw [hfields, hcollapse]
          generalize htdef : (c :: r).takeWhile (fun x => !isWhitespace x) = t at htok hhead
          have htne : t ≠ [] := by rw [hhead]; simp
          have htr : t.rdropWhile isWhitespace = t := rdropWhile_of_all_not t htok
          cases hD : (c :: r).dropWhile (fun x => !isWhitespace x) with
          | nil =>
            refine ⟨by simp, ?_, ?_⟩
            · simp [joinSpaces_single, collapseRuns, htr]
            · simp [collapseRuns, htr, htne]
          | cons d r2 =>
            have hd : isWhitespace d = true := by
              have := dropWhile_head_not (fun x => !isWhitespace x) (c :: r) d r2 hD
              simpa using this
            rw [hD] at hlenD
            simp only [List.length_cons] at hlenD
            have hlen3 : (r2.dropWhile isWhitespace).length ≤ n := by
              have := (List.dropWhile_sublist isWhitespace :
                List.Sublist (r2.dropWhile isWhitespace) r2).length_le
              omega
            have ih3 := ih (r2.dropWhile isWhitespace) hlen3
            rw [collapseRuns_cons_ws d r2 hd]
            simp only []
            rw [← fields_space_dropWhile r2]
            cases hr3 : r2.dropWhile isWhitespace with
            | nil =>
              refine ⟨by simp, ?_, ?_⟩
              · rw [fields_nil, joinSpaces_single, rdropWhile_append_of_nil _ _ _ (by decide), htr]
              · rw [rdropWhile_append_of_nil _ _ _ (by decide), htr]
                exact htne
            | cons c3 r3 =>
              have hc3 : isWhitespace c3 = false := by
                have := dropWhile_head_not isWhitespace r2 c3 r3 hr3
                simpa using this
              rw [hr3] at ih3
              obtain ⟨hj, hrest⟩ := ih3
              obtain ⟨hfne, hnorm, hrne⟩ := hrest c3 r3 rfl hc3
              have hY : (' ' :: collapseRuns (c3 :: r3)).rdropWhile isWhitespace =
                  ' ' :: (collapseRuns (c3 :: r3)).rdropWhile isWhitespace :=
                rdropWhile_append_of_ne_nil isWhitespace [' '] _ hrne
              have hYne : (' ' :: collapseRuns (c3 :: r3)).rdropWhile isWhitespace ≠ [] := by
                rw [hY]; simp
              refine ⟨by simp, ?_, ?_⟩
              · rw [rdropWhile_append_of_ne_nil _ _ _ hYne, hY, ← hnorm, ← hj]
                cases hf : fields SPACE_DELIM (c3 :: r3) with
                | nil => exact absurd hf hfne
                | cons u us => rw [joinSpaces_cons_cons]
              · rw [rdropWhile_append_of_ne_nil _ _ _ hYne]
                simp [htne]
        have hnorm : normalizeWs (c :: r) = (collapseRuns (c :: r)).rdropWhile isWhitespace := by
          unfold normalizeWs trim
          rw [hdw]
        refine ⟨?_, ?_⟩
        · rw [hnorm]; exact key.2.1
        · intro c' r' _ _
          exact ⟨key.1, hnorm, key.2.2⟩

theorem joinSpaces_fields (s : CStr) : joinSpaces (fields SPACE_DELIM s) = normalizeWs s :=
  (joinSpaces_fields_aux s.length s (Nat.le_refl _)).1

theorem storeAll_cells (ts : List CStr) :
    ∀ (arr : CArr CharPtr) (i : Nat), i + ts.length ≤ arr.cells.length →
      (storeAll arr i ts).cells =
        arr.cells.take i ++ ts.map (fun t => some (some t)) ++ arr.cells.drop (i + ts.length) := by
  induction ts with
  | nil => intro arr i _; simp [storeAll]
  | cons t ts ih =>
    intro arr i h
    simp only [List.length_cons] at h
    have hi : i < arr.cells.length := by omega
    have hcells : (arr.store i (some t)).cells =
        arr.cells.take i ++ some (some t) :: arr.cells.drop (i + 1) := by
      simp [CArr.store, hi, List.set_eq_take_append_cons_drop]
    have hlen : (arr.store i (some t)).cells.length = arr.cells.length := by
      simp [CArr.store, hi]
    simp only [storeAll]
    rw [ih (arr.store i (some t)) (i + 1) (by rw [hlen]; omega), hcells]
    have hti : (arr.cells.take i).length = i := by simp; omega
    have e1 : (arr.cells.take i ++ some (some t) :: arr.cells.drop (i + 1)).take (i + 1) =
        arr.cells.take i ++ [some (some t)] := by
      rw [List.take_append_eq_append_take, hti]
      simp [List.take_of_length_le, hti]
    have e2 : (arr.cells.take i ++ some (some t) :: arr.cells.drop (i + 1)).drop
        (i + 1 + ts.length) = arr.cells.drop (i + (t :: ts).length) := by
      rw [List.drop_append_eq_append_drop, hti]
      have : i + 1 + ts.length - i = (ts.length + 1) := by omega
      rw [this, List.drop_of_length_le (by simp; omega)]
      simp only [List.drop_succ_cons, List.nil_append, List.drop_drop, List.length_cons]
      congr 1
      omega
    rw [e1, e2]
    simp

theorem argv_of_cells (args : CArr CharPtr) (ts : List CStr) (rest : List (Option CharPtr))
    (h : args.cells = ts.map (fun t => some (some t)) ++ some none :: rest) :
    argv args = ts := by
  unfold argv
  rw [h]
  clear h
  induction ts with
  | nil => simp [List.takeWhile_cons]
  | cons t ts ih => simp [List.takeWhile_cons] at ih ⊢; exact ih

/-- The argument vector left by `parseSpaces`: the first `MAX_ARGS - 1` fields of
the command. -/
theorem argv_parseSpaces (command : CStr) :
    argv (parseSpaces command (CArr.fresh MAX_ARGS)) =
      (fields SPACE_DELIM command).take (MAX_ARGS - 1) := by
  rw [parseSpaces_eq]
  generalize hts : (fields SPACE_DELIM command).take (MAX_ARGS - 1) = ts
  have hlen : ts.length ≤ MAX_ARGS - 1 := by
    rw [← hts, List.length_take]; omega
  have hM : MAX_ARGS = 64 := rfl
  have hfit : 0 + ts.length ≤ (CArr.fresh MAX_ARGS : CArr CharPtr).cells.length := by
    simp [fresh_length]; omega
  have hc := storeAll_cells ts (CArr.fresh MAX_ARGS) 0 hfit
  have hl := (storeAll_oob ts (CArr.fresh MAX_ARGS) 0 hfit).2
  rw [fresh_length] at hl
  apply argv_of_cells _ ts
    (((CArr.fresh MAX_ARGS : CArr CharPtr).cells.drop (0 + ts.length)).drop 1)
  unfold CArr.store
  rw [hl, if_pos (by omega)]
  simp only []
  rw [hc, List.set_eq_take_append_cons_drop]
  have hlen2 : (List.take 0 (CArr.fresh MAX_ARGS : CArr CharPtr).cells ++
      ts.map (fun t => some (some t))).length = ts.length := by simp
  have hdl : ((CArr.fresh MAX_ARGS : CArr CharPtr).cells.drop (0 + ts.length)).length
      = 64 - ts.length := by simp [fresh_length, hM]
  rw [if_pos (by simp [fresh_length]; omega)]
  rw [List.take_left' hlen2, List.drop_append_eq_append_drop, hlen2]
  simp

/-- The terminator `parseSpaces` stores is `args[n]`, `n` the number of tokens. -/
theorem parseSpaces_load_zero (command : CStr) (h : fields SPACE_DELIM command = []) :
    (parseSpaces command (CArr.fresh MAX_ARGS)).load 0 = some none := by
  rw [parseSpaces_eq, h]
  decide

theorem fields_eq_nil_of_all (delim s : CStr) (h : ∀ c ∈ s, c ∈ delim) :
    fields delim s = [] := by
  induction s with
  | nil => exact fields_nil delim
  | cons a l ih =>
    rw [fields_cons_delim delim a l (h a (List.mem_cons_self a l))]
    exact ih (fun c hc => h c (List.mem_cons_of_mem a hc))

/-- C2 (as amended): for a stage text of at most `MAX_ARGS - 1` tokens, the tokens
of `parseSpaces` joined by single spaces are the text with every run of
whitespace collapsed to one space and its ends trimmed; a longer text yields
its first `MAX_ARGS - 1` tokens only; an empty or all-whitespace text yields
no token, `args[0]` being the `NULL` terminator. -/
theorem parseSpaces_rejoin_normalizes (S : CStr)
    (hcount : (fields SPACE_DELIM S).length ≤ MAX_ARGS - 1) :
    joinSpaces (argv (parseSpaces S (CArr.fresh MAX_ARGS))) = normalizeWs S ∧
      argv (parseSpaces S (CArr.fresh MAX_ARGS)) = fields SPACE_DELIM S ∧
      ((∀ c ∈ S, isWhitespace c = true) →
        argv (parseSpaces S (CArr.fresh MAX_ARGS)) = [] ∧
        (parseSpaces S (CArr.fresh MAX_ARGS)).load 0 = some none) := by
  have hargv : argv (parseSpaces S (CArr.fresh MAX_ARGS)) = fields SPACE_DELIM S := by
    rw [argv_parseSpaces, List.take_of_length_le hcount]
  refine ⟨?_, hargv, ?_⟩
  · rw [hargv, joinSpaces_fields]
  · intro hall
    have hnil : fields SPACE_DELIM S = [] :=
      fields_eq_nil_of_all SPACE_DELIM S (fun c hc => by simpa [isWhitespace] using hall c hc)
    exact ⟨by rw [hargv, hnil], parseSpaces_load_zero S hnil⟩

theorem parseSpaces_rejoin_normalizes_witness :
    (fields SPACE_DELIM "  ls \t -l ".toList).length ≤ MAX_ARGS - 1 ∧
      joinSpaces (argv (parseSpaces "  ls \t -l ".toList (CArr.fresh MAX_ARGS))) = "ls -l".toList ∧
      normalizeWs "  ls \t -l ".toList = "ls -l".toList :=
  ⟨by decide,
    (parseSpaces_rejoin_normalizes "  ls \t -l ".toList (by decide)).1.trans (by decide),
    by decide⟩

set_option maxRecDepth 100000 in
/-- C2 as stated fails on a text of 64 words: `parseSpaces` stops after
`MAX_ARGS - 1 = 63` tokens, so the rejoined tokens are one word short of the
normalised text. -/
theorem parseSpaces_sixty_four_words_counterexample :
    ¬ (joinSpaces (argv (parseSpaces sixtyFourWords (CArr.fresh MAX_ARGS))) =
        normalizeWs sixtyFourWords) := by
  decide

/-! ## Built-in commands -/

theorem strcmp_eq_zero (a : CStr) : ∀ b : CStr, strcmp a b = 0 ↔ a = b := by
  induction a with
  | nil => intro b; cases b <;> simp [strcmp]
  | cons x xs ih =>
    intro b
    cases b with
    | nil => simp [strcmp]
    | cons y ys =>
      by_cases h : x = y
      · simp [strcmp, h, ih ys]
      · by_cases hlt : x.toNat < y.toNat <;> simp [strcmp, h, hlt]

/-- C5: on a token sequence with first token `a0`, `handleBuiltinCommand` returns
`-1` exactly when `a0` is neither `exit` nor `history`, and then changes
nothing.  For `history` it returns 1, leaves the ledger unchanged and prints,
for each `i < count`, the index `i + 1` and the command text of `entries[i]`.
For `exit` it prints the summary header, for each `i < count` the index
`i + 1` with the whole record `entries[i]`, and the closing lines, releases
the ledger and ends the process with `EXIT_SUCCESS`; the statement behind the
call of `handleSigint` is `return 0` (whatever the call returned, 0 would be
returned), and 0 is the value of `status` on which `shellLoop` stops, any
other value making it read on. -/
theorem handleBuiltinCommand_outcomes (args : CArr CharPtr) (a0 : CStr) (s : Shell)
    (h0 : (args.load 0).join = some a0) :
    ((∃ s1, handleBuiltinCommand args s = Ctl.ret (-1) s1) ↔
        (a0 ≠ "exit".toList ∧ a0 ≠ "history".toList)) ∧
      (a0 ≠ "exit".toList → a0 ≠ "history".toList →
        handleBuiltinCommand args s = Ctl.ret (-1) s) ∧
      (a0 = "history".toList →
        handleBuiltinCommand args s =
          Ctl.ret 1
            { s with out := s.out ++ (List.range s.history.count).map (fun i =>
                Out.historyLine (i + 1)
                  ((s.history.entries.get? i).getD ⟨none, none, none, none⟩).command) } ∧
        (Ctl.shell (handleBuiltinCommand args s)).history = s.history) ∧
      (a0 = "exit".toList →
        handleBuiltinCommand args s =
          Ctl.exit 0
            { s with
              out := s.out ++ [Out.summaryHeader] ++ (List.range s.history.count).map (fun i =>
                  Out.summaryEntry (i + 1)
                    ((s.history.entries.get? i).getD ⟨none, none, none, none⟩))
                ++ [Out.blankLine, Out.terminatedText],
              historyFreed := true } ∧
        (∀ (sigint : Shell → Ctl) (v : Int) (s1 : Shell), sigint s = Ctl.ret v s1 →
          handleBuiltinCommandWith sigint args s = Ctl.ret 0 s1) ∧
        (∀ (env : Env) (raw : CStr) (more : List (Env × Input)) (status v : Int)
            (s0 s1 : Shell),
          shellLoopBody env (chomp raw) status { s0 with out := s0.out ++ [Out.promptText] } =
              Ctl.ret v s1 →
          shellLoopFrom ((env, Input.text raw) :: more) status s0 =
            if v = 0 then Ctl.ret 0 (freeHistory { s1 with out := s1.out ++ [Out.exitedText] })
            else shellLoopFrom more v s1)) := by
  have hexit : a0 = "exit".toList → ∀ sigint : Shell → Ctl,
      handleBuiltinCommandWith sigint args s =
        (sigint s).andThen (fun _ s1 => Ctl.ret 0 s1) := by
    intro h sigint
    unfold handleBuiltinCommandWith
    rw [h0]
    simp only []
    rw [if_pos ((strcmp_eq_zero a0 _).mpr h)]
  have hhist : a0 = "history".toList →
      handleBuiltinCommand args s = Ctl.ret 1 (displayHistory s) := by
    intro h
    unfold handleBuiltinCommand handleBuiltinCommandWith
    rw [h0]
    simp only []
    have hne : a0 ≠ "exit".toList := by rw [h]; decide
    rw [if_neg (fun hz => hne ((strcmp_eq_zero a0 _).mp hz)),
      if_pos ((strcmp_eq_zero a0 _).mpr h)]
  have hother : a0 ≠ "exit".toList → a0 ≠ "history".toList →
      handleBuiltinCommand args s = Ctl.ret (-1) s := by
    intro h1 h2
    unfold handleBuiltinCommand handleBuiltinCommandWith
    rw [h0]
    simp only []
    rw [if_neg (fun hz => h1 ((strcmp_eq_zero a0 _).mp hz)),
      if_neg (fun hz => h2 ((strcmp_eq_zero a0 _).mp hz))]
  refine ⟨⟨?_, ?_⟩, hother, ?_, ?_⟩
  · rintro ⟨s1, hs1⟩
    refine ⟨?_, ?_⟩
    · intro h
      unfold handleBuiltinCommand at hs1
      rw [hexit h handleSigint] at hs1
      simp [handleSigint, Ctl.andThen] at hs1
    · intro h
      rw [hhist h] at hs1
      simp at hs1
  · rintro ⟨h1, h2⟩
    exact ⟨s, hother h1 h2⟩
  · intro h
    rw [hhist h]
    exact ⟨rfl, rfl⟩
  · intro h
    refine ⟨?_, ?_, ?_⟩
    · unfold handleBuiltinCommand
      rw [hexit h handleSigint]
      rfl
    · intro sigint v s1 hs
      rw [hexit h sigint, hs]
      rfl
    · intro env raw more status v s0 s1 hbody
      by_cases hv : v = 0
      · subst hv
        simp [shellLoopFrom, hbody, Ctl.andThen]
      · simp [shellLoopFrom, hbody, Ctl.andThen, hv]

theorem handleBuiltinCommand_outcomes_witness :
    ((parseSpaces "exit".toList (CArr.fresh MAX_ARGS)).load 0).join = some "exit".toList ∧
      handleBuiltinCommand (parseSpaces "exit".toList (CArr.fresh MAX_ARGS)) twoRecordShell =
        Ctl.exit 0
          { twoRecordShell with
            out := [Out.summaryHeader,
              Out.summaryEntry 1 ⟨some "ls".toList, none, none, none⟩,
              Out.summaryEntry 2 ⟨some "exit".toList, none, none, none⟩,
              Out.blankLine, Out.terminatedText],
            historyFreed := true } :=
  ⟨by decide,
    ((handleBuiltinCommand_outcomes (parseSpaces "exit".toList (CArr.fresh MAX_ARGS))
      "exit".toList twoRecordShell (by decide)).2.2.2 rfl).1.trans (by decide)⟩

/-! ## The history ledger -/

theorem ledgerInv_init : LedgerInv initHistory :=
  ⟨by simp [initHistory, malloc], by simp [initHistory], 0, by simp [initHistory]⟩

theorem growHistory_count (h : CommandHistory) : (growHistory h).count = h.count := by
  unfold growHistory
  split <;> rfl

theorem growHistory_capacity (h : CommandHistory) :
    (growHistory h).capacity = if h.count ≥ h.capacity then h.capacity * 2 else h.capacity := by
  unfold growHistory
  split <;> rfl

theorem growHistory_length (h : CommandHistory) (hinv : LedgerInv h) :
    (growHistory h).entries.length = (growHistory h).capacity := by
  unfold growHistory
  split
  · simp [realloc, hinv.1]
    omega
  · exact hinv.1

theorem growHistory_entryAt (h : CommandHistory) (hinv : LedgerInv h) (j : Nat) :
    entryAt (growHistory h) j = entryAt h j := by
  unfold growHistory
  split
  · unfold entryAt realloc
    have hl := hinv.1
    simp only [List.get?_eq_getElem?]
    by_cases hj : j < h.entries.length
    · rw [List.getElem?_append_left (by simp; omega), List.getElem?_take_of_lt (by omega)]
    · rw [List.getElem?_append_right (by simp; omega)]
      have hnone : h.entries[j]? = none := List.getElem?_eq_none (by omega)
      rw [hnone]
      simp only [Option.getD_none]
      by_cases hj2 : j - (List.take (h.capacity * 2) h.entries).length <
          h.capacity * 2 - h.entries.length
      · rw [List.getElem?_replicate, if_pos hj2]
        rfl
      · rw [List.getElem?_replicate, if_neg hj2]
        rfl
  · rfl

theorem addToHistory_count (h : CommandHistory) (c : CStr) :
    (addToHistory h c).count = h.count + 1 := by
  simp [addToHistory, growHistory_count]

theorem addToHistory_capacity (h : CommandHistory) (c : CStr) :
    (addToHistory h c).capacity = if h.count ≥ h.capacity then h.capacity * 2 else h.capacity := by
  simp only [addToHistory]
  exact growHistory_capacity h

theorem addToHistory_length (h : CommandHistory) (c : CStr) (hinv : LedgerInv h) :
    (addToHistory h c).entries.length = (addToHistory h c).capacity := by
  simp only [addToHistory, List.length_modify]
  exact growHistory_length h hinv

theorem addToHistory_inv (h : CommandHistory) (c : CStr) (hinv : LedgerInv h) :
    LedgerInv (addToHistory h c) := by
  refine ⟨addToHistory_length h c hinv, ?_, ?_⟩
  · rw [addToHistory_count, addToHistory_capacity]
    obtain ⟨_, hle, k, hk⟩ := hinv
    have hpos : 0 < h.capacity := by
      rw [hk]
      exact Nat.mul_pos (by decide) (Nat.pos_pow_of_pos k (by decide))
    split <;> omega
  · rw [addToHistory_capacity]
    obtain ⟨_, _, k, hk⟩ := hinv
    split
    · exact ⟨k + 1, by rw [hk, pow_succ]; ring⟩
    · exact ⟨k, hk⟩

theorem addToHistory_entryAt (h : CommandHistory) (c : CStr) (hinv : LedgerInv h) (j : Nat) :
    (entryAt (addToHistory h c) j).command =
      if j = h.count then some (strncpy c (MAX_LINE_LEN - 1)) else (entryAt h j).command := by
  have hlen := growHistory_length h hinv
  have hcap : h.count < (growHistory h).capacity := by
    rw [growHistory_capacity]
    obtain ⟨_, hle, k, hk⟩ := hinv
    have hpos : 0 < h.capacity := by
      rw [hk]
      exact Nat.mul_pos (by decide) (Nat.pos_pow_of_pos k (by decide))
    split <;> omega
  have hg := growHistory_entryAt h hinv j
  unfold entryAt at hg ⊢
  simp only [addToHistory, List.get?_eq_getElem?, List.getElem?_modify, growHistory_count] at hg ⊢
  by_cases hj : j = h.count
  · subst hj
    rw [List.getElem?_eq_getElem (by omega)]
    simp
  · rw [if_neg hj]
    rw [← hg]
    cases (growHistory h).entries[j]? <;> simp [Ne.symm hj]

theorem finalize_inv (h : CommandHistory) (i : Nat) (pid : Option Int) (d : Duration)
    (hinv : LedgerInv h) : LedgerInv (finalize h i pid d) := by
  unfold LedgerInv finalize
  simpa using hinv

theorem finalize_entryAt (h : CommandHistory) (i : Nat) (pid : Option Int) (d : Duration)
    (j : Nat) : (entryAt (finalize h i pid d) j).command = (entryAt h j).command := by
  unfold entryAt finalize
  simp only [List.get?_eq_getElem?, List.getElem?_modify]
  cases h.entries[j]? with
  | none => rfl
  | some e => by_cases hij : i = j <;> simp [hij]

theorem iterate_commands_add (h : CommandHistory) (c : CStr) (hinv : LedgerInv h) :
    (iterate (addToHistory h c)).map (fun e => e.command) =
      (iterate h).map (fun e => e.command) ++ [some (strncpy c (MAX_LINE_LEN - 1))] := by
  unfold iterate
  rw [addToHistory_count, List.range_succ]
  simp only [List.map_append, List.map_map, List.map_cons, List.map_nil]
  congr 1
  · apply List.map_congr_left
    intro j hj
    have hj' : j < h.count := by simpa using hj
    show (entryAt (addToHistory h c) j).command = (entryAt h j).command
    rw [addToHistory_entryAt h c hinv j, if_neg (by omega)]
  · show [(entryAt (addToHistory h c) h.count).command] = _
    rw [addToHistory_entryAt h c hinv h.count, if_pos rfl]

theorem iterate_commands_finalize (h : CommandHistory) (i : Nat) (pid : Option Int)
    (d : Duration) :
    (iterate (finalize h i pid d)).map (fun e => e.command) =
      (iterate h).map (fun e => e.command) := by
  unfold iterate
  simp only [List.map_map]
  have hc : (finalize h i pid d).count = h.count := rfl
  rw [hc]
  apply List.map_congr_left
  intro j _
  exact finalize_entryAt h i pid d j

theorem runOps_commands (ops : List LedgerOp) :
    ∀ h : CommandHistory, LedgerInv h →
      (runOps h ops).count = h.count + (appended ops).length ∧
      (iterate (runOps h ops)).map (fun e => e.command) =
        (iterate h).map (fun e => e.command) ++
          (appended ops).map (fun t => some (strncpy t (MAX_LINE_LEN - 1))) := by
  induction ops with
  | nil => intro h _; simp [runOps, appended]
  | cons op ops ih =>
    intro h hinv
    cases op with
    | append text =>
      have := ih (addToHistory h text) (addToHistory_inv h text hinv)
      simp only [runOps, List.foldl_cons, applyOp, appended] at this ⊢
      rw [this.1, this.2, addToHistory_count, iterate_commands_add h text hinv]
      simp only [List.length_cons, List.map_cons, List.append_assoc, List.singleton_append]
      exact ⟨by omega, trivial⟩
    | fill index pid d =>
      have := ih (finalize h index pid d) (finalize_inv h index pid d hinv)
      simp only [runOps, List.foldl_cons, applyOp, appended] at this ⊢
      rw [this.1, this.2, iterate_commands_finalize]
      exact ⟨rfl, rfl⟩

theorem fillsExisting_bound (ops : List LedgerOp) :
    ∀ count : Nat, fillsExisting count ops = true →
      ∀ i pid d, LedgerOp.fill i pid d ∈ ops → i < count + (appended ops).length := by
  induction ops with
  | nil => intro count _ i pid d h; cases h
  | cons op ops ih =>
    intro count hf i pid d hmem
    cases op with
    | append text =>
      simp only [fillsExisting] at hf
      simp only [List.mem_cons, reduceCtorEq, false_or] at hmem
      have := ih (count + 1) hf i pid d hmem
      simp only [appended, List.length_cons]
      omega
    | fill j q e =>
      simp only [fillsExisting, Bool.and_eq_true, decide_eq_true_eq] at hf
      simp only [appended]
      rcases List.mem_cons.mp hmem with heq | hmem
      · cases heq
        omega
      · exact ih count hf.2 i pid d hmem

theorem map_range_enum (n : Nat) (g : Nat → Option CStr) (F : Nat → Option CStr → Out) :
    (List.range n).map (fun i => F (i + 1) (g i)) =
      ((List.range n).map g).enum.map (fun q => F (q.1 + 1) q.2) := by
  apply List.ext_getElem?
  intro i
  by_cases h : i < n
  · simp [List.getElem?_map, List.getElem?_range, h, List.getElem?_enum, List.enum_map]
  · simp [List.getElem?_eq_none, Nat.le_of_not_lt h]

/-- C6: after any sequence of `addToHistory` calls on a fresh ledger, interleaved
with fills of `pid` and `durationSecs` at existing indices, the ledger holds
`M` records, `M` the number of calls, and visiting `entries[0..count-1]` yields
exactly `M` records whose command texts are the appended texts, each cut to
`MAX_LINE_LEN - 1` characters, in append order; these are the lines
`displayHistory` prints, numbered from 1. -/
theorem iterate_yields_appended (ops : List LedgerOp) (hfill : fillsExisting 0 ops = true) :
    (runOps initHistory ops).count = (appended ops).length ∧
      (iterate (runOps initHistory ops)).length = (appended ops).length ∧
      (iterate (runOps initHistory ops)).map (fun e => e.command) =
        (appended ops).map (fun t => some (t.take (MAX_LINE_LEN - 1))) ∧
      historyLines (runOps initHistory ops) =
        ((appended ops).map (fun t => some (t.take (MAX_LINE_LEN - 1)))).enum.map
          (fun q => Out.historyLine (q.1 + 1) q.2) ∧
      (∀ i pid d, LedgerOp.fill i pid d ∈ ops → i < (runOps initHistory ops).count) := by
  have h := runOps_commands ops initHistory ledgerInv_init
  have h0 : initHistory.count = 0 := rfl
  have hcmds : (iterate (runOps initHistory ops)).map (fun e => e.command) =
      (appended ops).map (fun t => some (t.take (MAX_LINE_LEN - 1))) := by
    rw [h.2]
    simp [iterate, h0, strncpy]
  refine ⟨by rw [h.1, h0]; omega, ?_, hcmds, ?_, ?_⟩
  · simp only [iterate, List.length_map, List.length_range]
    rw [h.1, h0]; omega
  · rw [← hcmds]
    unfold historyLines iterate
    rw [List.map_map]
    exact map_range_enum _ _ _
  · intro i pid d hmem
    have := fillsExisting_bound ops 0 hfill i pid d hmem
    rw [h.1, h0]
    exact this

theorem iterate_yields_appended_witness :
    fillsExisting 0 [LedgerOp.append "ls".toList, LedgerOp.fill 0 (some 7) ⟨0, 15⟩,
        LedgerOp.append "history".toList, LedgerOp.fill 1 (some 4242) ⟨0, 3⟩] = true ∧
      (iterate (runOps initHistory [LedgerOp.append "ls".toList, LedgerOp.fill 0 (some 7) ⟨0, 15⟩,
        LedgerOp.append "history".toList, LedgerOp.fill 1 (some 4242) ⟨0, 3⟩])).map
          (fun e => e.command) = [some "ls".toList, some "history".toList] :=
  ⟨by decide,
    (iterate_yields_appended [LedgerOp.append "ls".toList, LedgerOp.fill 0 (some 7) ⟨0, 15⟩,
        LedgerOp.append "history".toList, LedgerOp.fill 1 (some 4242) ⟨0, 3⟩]
      (by decide)).2.2.1.trans (by decide)⟩

theorem ledgerAfter_inv (texts : List CStr) :
    LedgerInv (ledgerAfter texts) ∧ (ledgerAfter texts).count = texts.length := by
  unfold ledgerAfter
  have gen : ∀ (ts : List CStr) (h : CommandHistory), LedgerInv h →
      LedgerInv (ts.foldl addToHistory h) ∧
        (ts.foldl addToHistory h).count = h.count + ts.length := by
    intro ts
    induction ts with
    | nil => intro h hinv; exact ⟨hinv, rfl⟩
    | cons t ts ih =>
      intro h hinv
      have := ih (addToHistory h t) (addToHistory_inv h t hinv)
      simp only [List.foldl_cons, List.length_cons]
      rw [addToHistory_count] at this
      exact ⟨this.1, by omega⟩
  have := gen texts initHistory ledgerInv_init
  exact ⟨this.1, by rw [this.2]; simp [initHistory]⟩

/-- C7: on every ledger reached from `initHistory` by `addToHistory` calls,
`count ≤ capacity` and the block has `capacity` elements; one more call
raises `count` by one, leaves `capacity` as it is when `count < capacity` and
doubles it when `count = capacity`; `capacity` is `INITIAL_HISTORY_CAPACITY`
times a power of two; the index written, `entries[count]`, is inside the
block; and while `capacity ≤ INT_MAX / 2` the doubled value fits an `int`. -/
theorem addToHistory_capacity_invariant (texts : List CStr) (command : CStr) :
    (ledgerAfter texts).count ≤ (ledgerAfter texts).capacity ∧
      (ledgerAfter texts).entries.length = (ledgerAfter texts).capacity ∧
      (addToHistory (ledgerAfter texts) command).count = (ledgerAfter texts).count + 1 ∧
      ((ledgerAfter texts).count < (ledgerAfter texts).capacity →
        (addToHistory (ledgerAfter texts) command).capacity = (ledgerAfter texts).capacity) ∧
      ((ledgerAfter texts).count = (ledgerAfter texts).capacity →
        (addToHistory (ledgerAfter texts) command).capacity =
          2 * (ledgerAfter texts).capacity) ∧
      (∃ k, (ledgerAfter texts).capacity = INITIAL_HISTORY_CAPACITY * 2 ^ k) ∧
      (ledgerAfter texts).count < (addToHistory (ledgerAfter texts) command).capacity ∧
      (ledgerAfter texts).count < (addToHistory (ledgerAfter texts) command).entries.length ∧
      ((ledgerAfter texts).capacity ≤ INT_MAX / 2 →
        (addToHistory (ledgerAfter texts) command).capacity ≤ INT_MAX) := by
  obtain ⟨hinv, _⟩ := ledgerAfter_inv texts
  generalize ledgerAfter texts = h at hinv
  have hinv2 := addToHistory_inv h command hinv
  have hcount := addToHistory_count h command
  have hcap := addToHistory_capacity h command
  obtain ⟨hlen, hle, k, hk⟩ := hinv
  have hM : INT_MAX = 2147483647 := rfl
  refine ⟨hle, hlen, hcount, ?_, ?_, ⟨k, hk⟩, ?_, ?_, ?_⟩
  · intro hlt; rw [hcap, if_neg (by omega)]
  · intro heq; rw [hcap, if_pos (by omega)]; omega
  · have := hinv2.2.1; omega
  · have := hinv2.2.1; rw [hinv2.1]; omega
  · intro hhalf
    rw [hcap]
    split <;> omega

/-! ## Lines that reach `executeLine` without a command -/

theorem parsePipes_lone_pipe :
    parsePipes (strncpy ['|'] (MAX_LINE_LEN - 1)) (CArr.fresh MAX_CMDS) =
      (0, (CArr.fresh MAX_CMDS).store 0 none) := by
  decide

theorem fields_ne_nil (delim s : CStr) (h : ∃ c ∈ s, c ∉ delim) : fields delim s ≠ [] := by
  induction s with
  | nil => obtain ⟨c, hc, _⟩ := h; cases hc
  | cons a l ih =>
    by_cases ha : a ∈ delim
    · rw [fields_cons_delim delim a l ha]
      apply ih
      obtain ⟨c, hc, hnot⟩ := h
      rcases List.mem_cons.mp hc with heq | hmem
      · subst heq; exact absurd ha hnot
      · exact ⟨c, hmem, hnot⟩
    · rw [fields_cons_nondelim delim a l ha]
      simp

/-- A line with a character other than `|` has at least one stage, at most
`MAX_CMDS`: then `numCmds - 1` is an index of `pids`. -/
theorem parsePipes_count_pos (line : CStr) (commands : CArr CharPtr)
    (h : ∃ c ∈ line, c ≠ '|') :
    1 ≤ (parsePipes line commands).1 ∧ (parsePipes line commands).1 ≤ MAX_CMDS := by
  rw [parsePipes_eq]
  have hne : fields PIPE_DELIM line ≠ [] := by
    apply fields_ne_nil
    obtain ⟨c, hc, hnot⟩ := h
    exact ⟨c, hc, by simpa [PIPE_DELIM] using hnot⟩
  have hpos : 0 < (fields PIPE_DELIM line).length := List.length_pos.mpr hne
  simp only [List.length_take]
  have hM : MAX_CMDS = 16 := rfl
  omega

/-- C9 at the line `|`: the line passes the blank-line test of `shellLoop`,
`parsePipes` returns 0 stages, the spawn loop writes no pid, and `executeLine`
reads `pids[numCmds - 1]` at index `-1`, outside `pids`. -/
theorem executeLine_lone_pipe_reads_outside_pids (env : Env) (s : Shell) :
    isBlankLine ['|'] = false ∧
      (parsePipes ['|'] (CArr.fresh MAX_CMDS)).1 = 0 ∧
      executeLine env ['|'] s =
        Ctl.fault (Fault.loadOutside "pids" (-1))
          { s with history := setStartTime (addToHistory s.history ['|'])
                      ((addToHistory s.history ['|']).count - 1) env.startTv.tv_sec } := by
  refine ⟨by decide, by decide, ?_⟩
  unfold executeLine
  simp only [parsePipes_lone_pipe]
  simp [CArr.store, CArr.fresh, MAX_CMDS, spawnLoop, waitAll, strncpy, MAX_LINE_LEN]

theorem parsePipes_blank_stage :
    parsePipes (strncpy [' ', '|'] (MAX_LINE_LEN - 1)) (CArr.fresh MAX_CMDS) =
      (1, ((CArr.fresh MAX_CMDS).store 0 (some [' '])).store 1 none) := by
  decide

theorem parseSpaces_blank_stage :
    (parseSpaces (strncpy [' '] (MAX_LINE_LEN - 1)) (CArr.fresh MAX_ARGS)).load 0 = some none := by
  decide

/-- C4 at the line ` |` (a space, then a pipe character): the line passes the
blank-line test, `parsePipes` returns the single stage ` `, `parseSpaces` finds
no token, and `executeLine` returns 1 from `if (args[0] == NULL) return 1;`
with the record appended and its `pid` and `durationSecs` never assigned. -/
theorem executeLine_blank_stage_record_unfilled (env : Env) (s : Shell) :
    isBlankLine [' ', '|'] = false ∧
      executeLine env [' ', '|'] s =
        Ctl.ret 1
          { s with history := setStartTime (addToHistory s.history [' ', '|'])
                      ((addToHistory s.history [' ', '|']).count - 1) env.startTv.tv_sec } ∧
      (executeLine env [' ', '|'] Shell.init).shell.history.count = 1 ∧
      (entryAt (executeLine env [' ', '|'] Shell.init).shell.history 0).command =
        some [' ', '|'] ∧
      (entryAt (executeLine env [' ', '|'] Shell.init).shell.history 0).pid = none ∧
      (entryAt (executeLine env [' ', '|'] Shell.init).shell.history 0).durationSecs = none := by
  have hexec : ∀ s : Shell, executeLine env [' ', '|'] s =
      Ctl.ret 1
        { s with history := setStartTime (addToHistory s.history [' ', '|'])
                    ((addToHistory s.history [' ', '|']).count - 1) env.startTv.tv_sec } := by
    intro s
    unfold executeLine
    simp only [parsePipes_blank_stage]
    have hload : ((((CArr.fresh MAX_CMDS : CArr CharPtr).store 0 (some [' '])).store 1 none).load
        0).join = some [' '] := by decide
    have hoob : (((CArr.fresh MAX_CMDS : CArr CharPtr).store 0 (some [' '])).store 1 none).oob
        = [] := by decide
    simp only [hload, hoob, parseSpaces_blank_stage]
    simp [strncpy, MAX_LINE_LEN]
  refine ⟨by decide, hexec s, ?_, ?_, ?_, ?_⟩ <;> rw [hexec Shell.init] <;> rfl

/-- The built-in path of `executeLine` does fill the record: on the line
`history` the new record gets the shell's pid and the elapsed time. -/
theorem executeLine_history_record_filled (env : Env) :
    executeLine env "history".toList Shell.init =
      Ctl.ret 1 (Ctl.shell (executeLine env "history".toList Shell.init)) ∧
      (entryAt (executeLine env "history".toList Shell.init).shell.history 0).pid =
        some env.shellPid ∧
      (entryAt (executeLine env "history".toList Shell.init).shell.history 0).durationSecs =
        some (elapsed env.startTv env.endTv) := by
  refine ⟨rfl, rfl, rfl⟩

/-- The pipeline path of `executeLine` fills the record with the pid of the
last stage. -/
theorem executeLine_pipeline_record_filled :
    (entryAt (executeLine sampleEnv "ls|wc".toList Shell.init).shell.history 0).pid =
        some 1002 ∧
      (entryAt (executeLine sampleEnv "ls|wc".toList Shell.init).shell.history 0).durationSecs =
        some ⟨1, 500⟩ := by
  decide

theorem parsePipes_bell :
    parsePipes (strncpy ['\x07'] (MAX_LINE_LEN - 1)) (CArr.fresh MAX_CMDS) =
      (1, ((CArr.fresh MAX_CMDS).store 0 (some ['\x07'])).store 1 none) := by
  decide

theorem parseSpaces_bell :
    (parseSpaces (strncpy ['\x07'] (MAX_LINE_LEN - 1)) (CArr.fresh MAX_ARGS)).load 0 =
      some none := by
  decide

/-- A line the blank-line test of `shellLoop` accepts is skipped: nothing
changes and `status` is kept. -/
theorem shellLoopBody_blank (env : Env) (line : CStr) (status : Int) (s : Shell)
    (h : isBlankLine line = true) : shellLoopBody env line status s = Ctl.ret status s := by
  simp [shellLoopBody, h]

/-- C3 at the line made of one bell character: the bell is whitespace for the
tokenizer but not for the blank-line test of `shellLoop`, so the line reaches
`executeLine`, which appends a record before it finds the token list empty
and returns 1; no process is spawned and the loop continues. -/
theorem shellLoopBody_bell_line_appends_record (env : Env) (status : Int) (s : Shell) :
    (∀ c ∈ ['\x07'], isWhitespace c = true) ∧
      isBlankLine ['\x07'] = false ∧
      shellLoopBody env ['\x07'] status s =
        Ctl.ret 1
          { s with history := setStartTime (addToHistory s.history ['\x07'])
                      ((addToHistory s.history ['\x07']).count - 1) env.startTv.tv_sec } ∧
      (shellLoopBody env ['\x07'] status s).shell.history.count = s.history.count + 1 ∧
      (shellLoopBody env ['\x07'] status s).shell.children = s.children := by
  have hexec : shellLoopBody env ['\x07'] status s =
      Ctl.ret 1
        { s with history := setStartTime (addToHistory s.history ['\x07'])
                    ((addToHistory s.history ['\x07']).count - 1) env.startTv.tv_sec } := by
    have hb : isBlankLine ['\x07'] = false := by decide
    unfold shellLoopBody
    rw [hb]
    simp only [Bool.false_eq_true, if_false]
    unfold executeLine
    simp only [parsePipes_bell]
    have hload : ((((CArr.fresh MAX_CMDS : CArr CharPtr).store 0 (some ['\x07'])).store 1
        none).load 0).join = some ['\x07'] := by decide
    have hoob : (((CArr.fresh MAX_CMDS : CArr CharPtr).store 0 (some ['\x07'])).store 1
        none).oob = [] := by decide
    simp only [hload, hoob, parseSpaces_bell]
    simp [strncpy, MAX_LINE_LEN]
  refine ⟨by decide, by decide, hexec, ?_, ?_⟩
  · rw [hexec]
    simp [Ctl.shell, setStartTime, addToHistory_count]
  · rw [hexec]
    rfl

/-! ## Descriptors and the spawn loop -/

theorem lowestFree_not_mem (used : List Nat) : lowestFree used ∉ used := by
  unfold lowestFree
  cases h : (List.range (used.length + 1)).find? (fun n => decide (n ∉ used)) with
  | some x =>
    have := List.find?_some h
    simpa using this
  | none =>
    exfalso
    have hall := List.find?_eq_none.mp h
    have hsub : List.range (used.length + 1) ⊆ used := by
      intro x hx
      have := hall x hx
      simpa using this
    have hle := ((List.nodup_range (used.length + 1)).subperm hsub).length_le
    simp at hle

theorem lookup_append_of_not_mem (F T : List (Nat × PipeEnd)) (k : Nat)
    (h : k ∉ F.map Prod.fst) : (F ++ T).lookup k = T.lookup k := by
  induction F with
  | nil => rfl
  | cons a F ih =>
    obtain ⟨a1, a2⟩ := a
    simp only [List.map_cons, List.mem_cons, not_or] at h
    have hne : (k == a1) = false := by simpa using h.1
    simp only [List.cons_append, List.lookup_cons, hne]
    exact ih h.2

theorem filter_append_of_not_mem (F T : List (Nat × PipeEnd)) (k : Nat)
    (h : k ∉ F.map Prod.fst) :
    (F ++ T).filter (fun p => decide (p.1 ≠ k)) = F ++ T.filter (fun p => decide (p.1 ≠ k)) := by
  rw [List.filter_append]
  congr 1
  apply List.filter_eq_self.mpr
  intro a ha
  have : a.1 ≠ k := by
    intro hk
    apply h
    rw [← hk]
    exact List.mem_map_of_mem Prod.fst ha
  simpa using this

theorem close_of_lookup (s : Shell) (fd : Nat) (e : PipeEnd) (h : s.fds.lookup fd = some e) :
    close s fd =
      { s with fds := s.fds.filter (fun p => decide (p.1 ≠ fd)), closed := s.closed ++ [e] } := by
  unfold close
  rw [h]

/-- The two descriptors `pipe` hands out are new and distinct. -/
theorem pipe_fresh (s : Shell) :
    (pipe s).1.1 ∉ s.fds.map Prod.fst ∧ (pipe s).1.2 ∉ s.fds.map Prod.fst ∧
      (pipe s).1.2 ≠ (pipe s).1.1 := by
  have h1 := lowestFree_not_mem (openFds s)
  have h2 := lowestFree_not_mem (lowestFree (openFds s) :: openFds s)
  simp only [openFds, List.mem_append, List.mem_cons, not_or] at h1 h2
  exact ⟨h1.2, h2.2.2, h2.1⟩

theorem childBranch_eq (fds : List (Nat × PipeEnd)) (commands : CArr CharPtr) (N i inFd : Nat)
    (pipeFd : Option (Nat × Nat)) (pid : Int) :
    childBranch fds commands N i inFd pipeFd pid =
      { stage := i, pid := pid,
        stdin := if i > 0 then fds.lookup inFd else none,
        stdout := if (i : Int) < (N : Int) - 1 then
          (pipeFd.bind (fun p => fds.lookup p.2)) else none,
        action := stageAction commands i } := rfl

/-- An iteration of the spawn loop that is not the last one: a pipe is made,
the child reads the previous pipe and writes the new one, and the parent
closes the new write end and the previous read end. -/
theorem spawnLoop_inner (env : Env) (commands : CArr CharPtr) (N left i k p : Nat)
    (st : SpawnState) (F : List (Nat × PipeEnd)) (hlt : i + 1 < N)
    (hp : env.pipeOk i = true) (hf : env.forkResult i = some k) (hH : SpawnHead F p i st) :
    ∃ st1 : SpawnState,
      spawnLoop env commands N (left + 1) i st = spawnLoop env commands N left (i + 1) st1 ∧
      SpawnHead F p (i + 1) st1 ∧
      st1.shell.closed = st.shell.closed ++ closesAt p N i ∧
      st1.shell.children = st.shell.children ++ [expectedChild env commands p N i] ∧
      st1.shell.badClose = st.shell.badClose ∧
      st1.pids = st.pids.store i ((k : Int) + 1) := by
  obtain ⟨hpipes, hfds, hin⟩ := hH
  have hw : decide ((i : Int) < (N : Int) - 1) = true := by
    simp only [decide_eq_true_eq]; omega
  have hwp : ((i : Int) < (N : Int) - 1) := by omega
  obtain ⟨hr, hwn, hwr⟩ := pipe_fresh st.shell
  have hpe : pipe st.shell = (((pipe st.shell).1.1, (pipe st.shell).1.2),
      { st.shell with
        fds := st.shell.fds ++ [((pipe st.shell).1.1, ⟨st.shell.pipes, Side.read⟩),
                                ((pipe st.shell).1.2, ⟨st.shell.pipes, Side.write⟩)],
        pipes := st.shell.pipes + 1 }) := rfl
  generalize (pipe st.shell).1.1 = r at hr hwr hpe
  generalize (pipe st.shell).1.2 = w at hwn hwr hpe
  -- the descriptor table after `pipe`, and the lookups the iteration makes in it
  have hlw : (st.shell.fds ++ [(r, (⟨st.shell.pipes, Side.read⟩ : PipeEnd)),
      (w, ⟨st.shell.pipes, Side.write⟩)]).lookup w = some ⟨st.shell.pipes, Side.write⟩ := by
    rw [lookup_append_of_not_mem _ _ _ hwn]
    have : (w == r) = false := by simpa using hwr
    simp [List.lookup_cons, this]
  have hfw : (st.shell.fds ++ [(r, (⟨st.shell.pipes, Side.read⟩ : PipeEnd)),
      (w, ⟨st.shell.pipes, Side.write⟩)]).filter (fun q => decide (q.1 ≠ w)) =
      st.shell.fds ++ [(r, ⟨st.shell.pipes, Side.read⟩)] := by
    rw [filter_append_of_not_mem _ _ _ hwn]
    simp [List.filter_cons, hwr, Ne.symm hwr]
  by_cases hi : i = 0
  · subst hi
    simp only [if_true, List.append_nil] at hfds
    refine ⟨⟨{ st.shell with
        fds := F ++ [(r, ⟨p, Side.read⟩)], pipes := p + 1,
        closed := st.shell.closed ++ closesAt p N 0,
        children := st.shell.children ++ [expectedChild env commands p N 0] }, r,
        st.pids.store 0 ((k : Int) + 1)⟩, ?_, ?_, rfl, rfl, rfl, rfl⟩
    · simp only [spawnLoop, hw, hp, hf, hpe, Bool.not_true, Bool.and_false, Bool.false_eq_true,
        if_false, if_true]
      congr 1
      simp only [Nat.lt_irrefl, if_false, gt_iff_lt]
      rw [close_of_lookup _ w ⟨st.shell.pipes, Side.write⟩ hlw]
      simp only [hfw, childBranch_eq, hwp, if_true, Option.bind, hlw]
      simp [hfds, hpipes, closesAt, expectedChild, forkPid, hf, hlt]
    · exact ⟨rfl, by simp, by intro _; rw [← hfds]; exact hr⟩
  · have hpos : 0 < i := Nat.pos_of_ne_zero hi
    have hinF := hin hpos
    simp only [hi, if_false] at hfds
    have hrF : r ∉ F.map Prod.fst := by
      intro h; apply hr; rw [hfds]; simp only [List.map_append, List.mem_append]; exact Or.inl h
    have hrin : r ≠ st.inFd := by
      intro h; apply hr; rw [hfds, h]; simp
    have hwin : w ≠ st.inFd := by
      intro h; apply hwn; rw [hfds, h]; simp
    -- lookups of `inFd`
    have hlin1 : (st.shell.fds ++ [(r, (⟨st.shell.pipes, Side.read⟩ : PipeEnd)),
        (w, ⟨st.shell.pipes, Side.write⟩)]).lookup st.inFd = some ⟨p + i - 1, Side.read⟩ := by
      rw [hfds, List.append_assoc, lookup_append_of_not_mem _ _ _ hinF]
      simp [List.lookup_cons]
    have hlin2 : (st.shell.fds ++ [(r, (⟨st.shell.pipes, Side.read⟩ : PipeEnd))]).lookup st.inFd
        = some ⟨p + i - 1, Side.read⟩ := by
      rw [hfds, List.append_assoc, lookup_append_of_not_mem _ _ _ hinF]
      simp [List.lookup_cons]
    have hfin : (st.shell.fds ++ [(r, (⟨st.shell.pipes, Side.read⟩ : PipeEnd))]).filter
        (fun q => decide (q.1 ≠ st.inFd)) = F ++ [(r, ⟨st.shell.pipes, Side.read⟩)] := by
      rw [hfds, List.append_assoc, filter_append_of_not_mem _ _ _ hinF]
      simp [List.filter_cons, hrin]
    refine ⟨⟨{ st.shell with
        fds := F ++ [(r, ⟨p + i, Side.read⟩)], pipes := p + i + 1,
        closed := st.shell.closed ++ closesAt p N i,
        children := st.shell.children ++ [expectedChild env commands p N i] }, r,
        st.pids.store i ((k : Int) + 1)⟩, ?_, ?_, rfl, rfl, rfl, rfl⟩
    · simp only [spawnLoop, hw, hp, hf, hpe, Bool.not_true, Bool.and_false, Bool.false_eq_true,
        if_false, if_true]
      congr 1
      simp only [gt_iff_lt, hpos, if_true]
      rw [close_of_lookup _ w ⟨st.shell.pipes, Side.write⟩ hlw]
      simp only [hfw]
      rw [close_of_lookup _ st.inFd ⟨p + i - 1, Side.read⟩ hlin2]
      simp only [hfin, childBranch_eq, hwp, if_true, Option.bind, hlw, hlin1, gt_iff_lt, hpos]
      simp [hpipes, closesAt, expectedChild, forkPid, hf, hlt, hpos]
    · exact ⟨rfl, by simp, by intro _; exact hrF⟩

/-- The last iteration of the spawn loop: no pipe is made, the child reads the
previous pipe, and the parent closes the previous read end. -/
theorem spawnLoop_last (env : Env) (commands : CArr CharPtr) (N i k p : Nat)
    (st : SpawnState) (F : List (Nat × PipeEnd)) (hlast : i + 1 = N)
    (hf : env.forkResult i = some k) (hH : SpawnHead F p i st) :
    spawnLoop env commands N 1 i st =
      (true,
        { shell := { st.shell with
            fds := F,
            closed := st.shell.closed ++ closesAt p N i,
            children := st.shell.children ++ [expectedChild env commands p N i] },
          inFd := st.inFd,
          pids := st.pids.store i ((k : Int) + 1) }) := by
  obtain ⟨hpipes, hfds, hin⟩ := hH
  have hw : decide ((i : Int) < (N : Int) - 1) = false := by
    simp only [decide_eq_false_iff_not]; omega
  have hwp : ¬ ((i : Int) < (N : Int) - 1) := by omega
  have hnlt : ¬ (i + 1 < N) := by omega
  by_cases hi : i = 0
  · subst hi
    simp only [if_true, List.append_nil] at hfds
    simp only [spawnLoop, hw, hf, Bool.false_and, Bool.false_eq_true, if_false]
    congr 2
    simp only [Nat.lt_irrefl, if_false, gt_iff_lt, childBranch_eq, hwp]
    simp [closesAt, expectedChild, forkPid, hf, hnlt, ← hfds]
  · have hpos : 0 < i := Nat.pos_of_ne_zero hi
    have hinF := hin hpos
    simp only [hi, if_false] at hfds
    have hlin : st.shell.fds.lookup st.inFd = some ⟨p + i - 1, Side.read⟩ := by
      rw [hfds, lookup_append_of_not_mem _ _ _ hinF]
      simp [List.lookup_cons]
    have hfin : st.shell.fds.filter (fun q => decide (q.1 ≠ st.inFd)) = F := by
      rw [hfds, filter_append_of_not_mem _ _ _ hinF]
      simp [List.filter_cons]
    simp only [spawnLoop, hw, hf, Bool.false_and, Bool.false_eq_true, if_false]
    congr 2
    simp only [gt_iff_lt, hpos, if_true, close, hlin]
    simp only [hfin, childBranch_eq, hwp, if_false, hlin, gt_iff_lt, hpos, if_true]
    simp [closesAt, expectedChild, forkPid, hf, hnlt, hpos]

/-- The spawn loop from the head of iteration `i` to its end, every `pipe()` and
`fork()` succeeding. -/
theorem spawnLoop_run (env : Env) (commands : CArr CharPtr) (N p : Nat)
    (F : List (Nat × PipeEnd)) (hp : ∀ i, env.pipeOk i = true)
    (hf : ∀ i, ∃ k, env.forkResult i = some k) :
    ∀ (left i : Nat) (st : SpawnState), i + left + 1 = N → SpawnHead F p i st →
      (spawnLoop env commands N (left + 1) i st).1 = true ∧
      (spawnLoop env commands N (left + 1) i st).2.shell.fds = F ∧
      (spawnLoop env commands N (left + 1) i st).2.shell.pipes = p + i + left ∧
      (spawnLoop env commands N (left + 1) i st).2.shell.closed =
        st.shell.closed ++ (List.range' i (left + 1)).flatMap (closesAt p N) ∧
      (spawnLoop env commands N (left + 1) i st).2.shell.children =
        st.shell.children ++ (List.range' i (left + 1)).map (expectedChild env commands p N) ∧
      (spawnLoop env commands N (left + 1) i st).2.shell.badClose = st.shell.badClose := by
  intro left
  induction left with
  | zero =>
    intro i st hN hH
    obtain ⟨k, hk⟩ := hf i
    rw [spawnLoop_last env commands N i k p st F (by omega) hk hH]
    refine ⟨rfl, rfl, ?_, ?_, ?_, rfl⟩
    · exact hH.1
    · simp [List.range'_succ]
    · simp [List.range'_succ]
  | succ left ih =>
    intro i st hN hH
    obtain ⟨k, hk⟩ := hf i
    obtain ⟨st1, heq, hH1, hcl, hch, hbad, _⟩ :=
      spawnLoop_inner env commands N (left + 1) i k p st F (by omega) (hp i) hk hH
    rw [heq]
    obtain ⟨h1, h2, h3, h4, h5, h6⟩ := ih (i + 1) st1 (by omega) hH1
    refine ⟨h1, h2, ?_, ?_, ?_, ?_⟩
    · rw [h3]; omega
    · rw [h4, hcl, List.range'_succ i (left + 1), List.flatMap_cons, List.append_assoc]
    · rw [h5, hch, List.range'_succ i (left + 1), List.map_cons, List.append_assoc]
      rfl
    · rw [h6, hbad]

/-! ## Both ends of every pipe are closed once -/

theorem closes_perm (p N : Nat) :
    ∀ (n j : Nat), j + n + 1 = N →
      List.Perm ((List.range' j (n + 1)).flatMap (closesAt p N))
        ((if 0 < j then [(⟨p + j - 1, Side.read⟩ : PipeEnd)] else []) ++ pipeEnds (p + j) n) := by
  intro n
  induction n with
  | zero =>
    intro j hj
    have : ¬ (j + 1 < N) := by omega
    simp [List.range'_succ, closesAt, this, pipeEnds]
  | succ n ih =>
    intro j hj
    have hlt : j + 1 < N := by omega
    have := ih (j + 1) (by omega)
    rw [List.range'_succ, List.flatMap_cons]
    simp only [Nat.succ_pos, if_true, Nat.add_sub_cancel] at this
    simp only [closesAt, hlt, if_true, pipeEnds]
    have hassoc : p + (j + 1) = p + j + 1 := by omega
    have hsub : p + j + 1 - 1 = p + j := by omega
    rw [hassoc, hsub] at this
    by_cases hj0 : 0 < j
    · simp only [hj0, if_true]
      refine List.Perm.trans (List.Perm.append_left _ this) ?_
      simp only [List.cons_append, List.nil_append, List.singleton_append]
      exact List.Perm.swap _ _ _
    · simp only [hj0, if_false, List.append_nil, List.nil_append]
      refine List.Perm.trans (List.Perm.append_left _ this) ?_
      simp only [List.cons_append, List.nil_append, List.singleton_append]
      exact List.Perm.refl _

theorem mem_pipeEnds (n : Nat) :
    ∀ (p : Nat) (e : PipeEnd), e ∈ pipeEnds p n ↔ (p ≤ e.id ∧ e.id < p + n) := by
  induction n with
  | zero => intro p e; simp [pipeEnds]
  | succ n ih =>
    intro p e
    obtain ⟨id, side⟩ := e
    simp only [pipeEnds, List.mem_cons, ih, PipeEnd.mk.injEq]
    cases side <;> simp <;> omega

theorem nodup_pipeEnds (n : Nat) : ∀ p : Nat, (pipeEnds p n).Nodup := by
  induction n with
  | zero => intro p; simp [pipeEnds]
  | succ n ih =>
    intro p
    simp only [pipeEnds, List.nodup_cons, List.mem_cons, mem_pipeEnds, PipeEnd.mk.injEq]
    refine ⟨?_, ?_, ih (p + 1)⟩
    · simp
    · simp

theorem store_oob_of_lt {α : Type} (a : CArr α) (i : Nat) (v : α) (h : i < a.cells.length) :
    (a.store i v).oob = a.oob ∧ (a.store i v).cells.length = a.cells.length := by
  simp [CArr.store, h]

/-- The pids the spawn loop stores: `pids[j]` for every iteration `j` it runs,
each inside the array. -/
theorem spawnLoop_pids (env : Env) (commands : CArr CharPtr) (N p : Nat)
    (F : List (Nat × PipeEnd)) (hp : ∀ i, env.pipeOk i = true)
    (hf : ∀ i, ∃ k, env.forkResult i = some k) :
    ∀ (left i : Nat) (st : SpawnState), i + left + 1 = N → SpawnHead F p i st →
      N ≤ st.pids.cells.length →
      (spawnLoop env commands N (left + 1) i st).2.pids.oob = st.pids.oob ∧
      (spawnLoop env commands N (left + 1) i st).2.pids.cells.length = st.pids.cells.length ∧
      ∀ j, (spawnLoop env commands N (left + 1) i st).2.pids.load j =
        if i ≤ j ∧ j < N then some (forkPid env j) else st.pids.load j := by
  intro left
  induction left with
  | zero =>
    intro i st hN hH hlen
    obtain ⟨k, hk⟩ := hf i
    rw [spawnLoop_last env commands N i k p st F (by omega) hk hH]
    have hs := store_oob_of_lt st.pids i ((k : Int) + 1) (by omega)
    refine ⟨hs.1, hs.2, ?_⟩
    intro j
    simp only []
    rw [load_store]
    by_cases hj : j = i
    · subst hj
      have h1 : j < st.pids.cells.length := by omega
      have h2 : j ≤ j ∧ j < N := ⟨Nat.le_refl _, by omega⟩
      simp [h1, h2, forkPid, hk]
    · have h2 : ¬ (i ≤ j ∧ j < N) := by omega
      simp [hj, h2]
  | succ left ih =>
    intro i st hN hH hlen
    obtain ⟨k, hk⟩ := hf i
    obtain ⟨st1, heq, hH1, _, _, _, hpids⟩ :=
      spawnLoop_inner env commands N (left + 1) i k p st F (by omega) (hp i) hk hH
    rw [heq]
    have hs := store_oob_of_lt st.pids i ((k : Int) + 1) (by omega)
    obtain ⟨h1, h2, h3⟩ := ih (i + 1) st1 (by omega) hH1 (by rw [hpids, hs.2]; exact hlen)
    refine ⟨by rw [h1, hpids, hs.1], by rw [h2, hpids, hs.2], ?_⟩
    intro j
    rw [h3 j, hpids, load_store]
    by_cases hj : j = i
    · subst hj
      have hA : ¬ (j + 1 ≤ j ∧ j < N) := by omega
      have hB : j ≤ j ∧ j < N := ⟨Nat.le_refl _, by omega⟩
      have hC : j < st.pids.cells.length := by omega
      simp [hA, hB, hC, forkPid, hk]
    · by_cases hr : i + 1 ≤ j ∧ j < N
      · have hB : i ≤ j ∧ j < N := ⟨by omega, hr.2⟩
        rw [if_pos hr, if_pos hB]
      · have hB : ¬ (i ≤ j ∧ j < N) := by omega
        rw [if_neg hr, if_neg hB]
        simp [hj]

/-- C8: with every `pipe()` and `fork()` succeeding, the spawn loop run on
`numCmds = N` stages, `1 ≤ N ≤ MAX_CMDS`, makes exactly `N - 1` pipes and `N`
children; the child of stage `i > 0` reads the read end of the pipe made in
iteration `i - 1`, the child of stage `i < N - 1` writes the write end of the
pipe made in iteration `i`; at the end the parent's descriptor table is the
one it started with, it has closed both ends of each of the `N - 1` pipes
exactly once, no `close` hit a descriptor that was not open, and `pids[0..N-1]`
hold the children's pids. -/
theorem spawnLoop_pipes_children_closes (env : Env) (commands : CArr CharPtr) (N : Nat)
    (s : Shell) (hN1 : 1 ≤ N) (hN2 : N ≤ MAX_CMDS) (hpipe : ∀ i, env.pipeOk i = true)
    (hfork : ∀ i, ∃ k, env.forkResult i = some k) :
    (spawnLoop env commands N N 0 ⟨s, STDIN_FILENO, CArr.fresh MAX_CMDS⟩).1 = true ∧
      (spawnLoop env commands N N 0 ⟨s, STDIN_FILENO, CArr.fresh MAX_CMDS⟩).2.shell.pipes =
        s.pipes + (N - 1) ∧
      (spawnLoop env commands N N 0 ⟨s, STDIN_FILENO, CArr.fresh MAX_CMDS⟩).2.shell.children =
        s.children ++ (List.range N).map (expectedChild env commands s.pipes N) ∧
      (spawnLoop env commands N N 0 ⟨s, STDIN_FILENO, CArr.fresh MAX_CMDS⟩).2.shell.fds =
        s.fds ∧
      (spawnLoop env commands N N 0 ⟨s, STDIN_FILENO, CArr.fresh MAX_CMDS⟩).2.shell.badClose =
        s.badClose ∧
      (∃ log : List PipeEnd,
        (spawnLoop env commands N N 0 ⟨s, STDIN_FILENO, CArr.fresh MAX_CMDS⟩).2.shell.closed =
          s.closed ++ log ∧
        log.Perm (pipeEnds s.pipes (N - 1)) ∧ log.Nodup ∧
        ∀ e : PipeEnd, e ∈ log ↔ (s.pipes ≤ e.id ∧ e.id < s.pipes + (N - 1))) ∧
      (spawnLoop env commands N N 0 ⟨s, STDIN_FILENO, CArr.fresh MAX_CMDS⟩).2.pids.oob = [] ∧
      (∀ j, j < N →
        (spawnLoop env commands N N 0 ⟨s, STDIN_FILENO, CArr.fresh MAX_CMDS⟩).2.pids.load j =
          some (forkPid env j)) := by
  obtain ⟨n, rfl⟩ : ∃ n, N = n + 1 := ⟨N - 1, by omega⟩
  have hH : SpawnHead s.fds s.pipes 0 ⟨s, STDIN_FILENO, CArr.fresh MAX_CMDS⟩ :=
    ⟨rfl, by simp, fun h => absurd h (Nat.lt_irrefl 0)⟩
  obtain ⟨h1, h2, h3, h4, h5, h6⟩ :=
    spawnLoop_run env commands (n + 1) s.pipes s.fds hpipe hfork n 0 _ (by omega) hH
  obtain ⟨g1, _, g3⟩ :=
    spawnLoop_pids env commands (n + 1) s.pipes s.fds hpipe hfork n 0 _ (by omega) hH
      (by simp only [fresh_length]; exact hN2)
  have hperm := closes_perm s.pipes (n + 1) n 0 (by omega)
  simp only [Nat.lt_irrefl, if_false, List.nil_append, Nat.add_zero] at hperm
  refine ⟨h1, ?_, ?_, h2, h6, ?_, ?_, ?_⟩
  · rw [h3]; simp
  · rw [h5, List.range_eq_range']
  · refine ⟨_, h4, ?_, ?_, ?_⟩
    · simpa using hperm
    · exact (hperm.nodup_iff).mpr (nodup_pipeEnds n s.pipes)
    · intro e
      rw [hperm.mem_iff, mem_pipeEnds]
      simp
  · rw [g1]; rfl
  · intro j hj
    rw [g3 j, if_pos ⟨Nat.zero_le _, hj⟩]

theorem spawnLoop_pipes_children_closes_witness :
    (1 ≤ 3 ∧ 3 ≤ MAX_CMDS) ∧
      (spawnLoop sampleEnv (parsePipes "ls|sort|wc".toList (CArr.fresh MAX_CMDS)).2 3 3 0
        ⟨Shell.init, STDIN_FILENO, CArr.fresh MAX_CMDS⟩).2.shell.children =
        Shell.init.children ++
          (List.range 3).map (expectedChild sampleEnv
            (parsePipes "ls|sort|wc".toList (CArr.fresh MAX_CMDS)).2 Shell.init.pipes 3) :=
  ⟨⟨by decide, by decide⟩,
    (spawnLoop_pipes_children_closes sampleEnv
      (parsePipes "ls|sort|wc".toList (CArr.fresh MAX_CMDS)).2 3 Shell.init (by decide)
      (by decide) (fun _ => rfl) (fun i => ⟨1000 + i, rfl⟩)).2.2.1⟩

end SimpleShell
